import Mathlib

/-!
# Verification of the CodebaseToText scan/render core

Shallow embedding of the repository's core modules and proofs of the
specification claims about them.  The embedded functions follow the Python
source files (`scanner.py`, `generator.py`, `caching.py`,
`file_processor.py`, `file_processor_utils.py`, `constants.py`) statement by
statement; machine-level concerns (threads, ticking cancellation events,
reference identity of dict objects) are modelled explicitly where a claim is
about them.  Paths are modelled POSIX-style: `os.path.sep` is `'/'`,
`os.path.normcase` is the identity, and absolute paths are represented either
as plain strings or as lists of path segments, as noted at each definition.

Recursions that are not structural (the glob matcher consumes two lists in
an interleaved way) are written with an explicit fuel argument plus a wrapper
supplying sufficient fuel, so that every definition evaluates inside the
kernel; fuel-adequacy is part of the proofs about them.
-/

namespace CodebaseToText

/-! ## `constants.py` -/

/-- `MAX_FILE_SIZE_MB = 10` -/
def MAX_FILE_SIZE_MB : Nat := 10

/-- `MAX_FILE_SIZE_BYTES = MAX_FILE_SIZE_MB * 1024 * 1024` -/
def MAX_FILE_SIZE_BYTES : Nat := MAX_FILE_SIZE_MB * 1024 * 1024

/-! ## `fnmatch.fnmatch`

The scanner's ignore matcher calls Python's `fnmatch.fnmatch(name, pattern)`.
On POSIX `os.path.normcase` is the identity, so `fnmatch` is glob matching of
the whole string against the whole pattern: `*` matches any (possibly empty)
sequence of characters (including `/` -- `fnmatch` is not path aware), `?`
matches exactly one character, `[seq]` / `[!seq]` match a character
class/complemented class with `a-b` ranges, an unterminated `[` is a literal
`[`, and every other character matches itself. -/

/-- One member of a glob character class: a literal character or a range. -/
inductive ClassItem where
  | single (c : Char)
  | range (lo hi : Char)
deriving Repr, DecidableEq

/-- Split a list at the first `']'`, returning the part before it and the
part after it; `none` when there is no `']'` (unterminated class). -/
def splitAtRBracket : List Char → Option (List Char × List Char)
  | [] => none
  | c :: rest =>
    if c = ']' then some ([], rest)
    else (splitAtRBracket rest).map (fun q => (c :: q.1, q.2))

/-- Interpret the body of a character class: `a-b` with a character on both
sides of the `-` forms a range, everything else is a literal member. -/
def classItemsOf : List Char → List ClassItem
  | [] => []
  | a :: '-' :: b :: rest => ClassItem.range a b :: classItemsOf rest
  | a :: rest => ClassItem.single a :: classItemsOf rest

/-- A leading `'!'` right after `'['` negates the class. -/
def stripBangLead (l : List Char) : Bool × List Char :=
  match l with
  | '!' :: t => (true, t)
  | _ => (false, l)

/-- A `']'` directly after `'['` or `'[!'` is a literal class member. -/
def stripRBLead (l : List Char) : List Char × List Char :=
  match l with
  | ']' :: t => ([']'], t)
  | _ => ([], l)

/-- Parse a character class from the pattern tail following `'['`, as
`fnmatch.translate` does: an optional leading `'!'` negates the class, a
`']'` directly after `'['` or `'[!'` is a literal member, and the class runs
to the next `']'`; `none` when the class is unterminated. -/
def parseClass (l : List Char) : Option (Bool × List ClassItem × List Char) :=
  let (neg, l1) := stripBangLead l
  let (lead, l2) := stripRBLead l1
  match splitAtRBracket l2 with
  | none => none
  | some (body, rest) => some (neg, classItemsOf (lead ++ body), rest)

/-- Does character `c` belong to the parsed class members? -/
def classMember (c : Char) (items : List ClassItem) : Bool :=
  items.any fun it =>
    match it with
    | ClassItem.single a => a == c
    | ClassItem.range lo hi => decide (lo ≤ c) && decide (c ≤ hi)

/-- Glob matching of string `s` against pattern `p` (both as character
lists), with the semantics of the regex produced by `fnmatch.translate`;
fuel-indexed so that the definition is structural.  Any fuel larger than
`p.length + s.length` gives the real answer (see `globMatchF_congr`). -/
def globMatchF : Nat → List Char → List Char → Bool
  | 0, _, _ => false
  | _ + 1, [], s => s.isEmpty
  | fuel + 1, c :: ps, [] => if c = '*' then globMatchF fuel ps [] else false
  | fuel + 1, c :: ps, d :: cs =>
    if c = '*' then
      globMatchF fuel ps (d :: cs) || globMatchF fuel (c :: ps) cs
    else if c = '?' then
      globMatchF fuel ps cs
    else if c = '[' then
      match parseClass ps with
      | some (neg, items, rest) =>
        (classMember d items != neg) && globMatchF fuel rest cs
      | none =>
        -- unterminated class: the '[' is a literal character
        (c == d) && globMatchF fuel ps cs
    else
      (c == d) && globMatchF fuel ps cs

/-- Glob matching with adequate fuel. -/
def globMatch (p s : List Char) : Bool :=
  globMatchF (p.length + s.length + 1) p s

/-- The remainder returned by `splitAtRBracket` is shorter than the input. -/
theorem splitAtRBracket_length :
    ∀ l a b, splitAtRBracket l = some (a, b) → b.length < l.length := by
  intro l
  induction l with
  | nil => intro a b h; exact Option.noConfusion h
  | cons c rest ih =>
    intro a b h
    simp only [splitAtRBracket] at h
    by_cases hc : c = ']'
    · rw [if_pos hc] at h
      cases h
      simp
    · rw [if_neg hc] at h
      cases hsp : splitAtRBracket rest with
      | none => rw [hsp] at h; simp at h
      | some q =>
        rw [hsp] at h
        simp only [Option.map_some'] at h
        cases h
        have := ih q.1 q.2 (by rw [hsp])
        simp only [List.length_cons]
        omega

/-- `stripBangLead` never lengthens the list. -/
theorem stripBangLead_length (l : List Char) :
    (stripBangLead l).2.length ≤ l.length := by
  unfold stripBangLead
  split
  · simp
  · simp

/-- `stripRBLead` never lengthens the list. -/
theorem stripRBLead_length (l : List Char) :
    (stripRBLead l).2.length ≤ l.length := by
  unfold stripRBLead
  split
  · simp
  · simp

/-- The pattern remainder after a parsed class is shorter than the input. -/
theorem parseClass_rest_length :
    ∀ l neg items rest, parseClass l = some (neg, items, rest) →
      rest.length ≤ l.length := by
  intro l neg items rest h
  simp only [parseClass] at h
  have h1 := stripBangLead_length l
  have h2 := stripRBLead_length (stripBangLead l).2
  cases hsp : splitAtRBracket (stripRBLead (stripBangLead l).2).2 with
  | none => rw [hsp] at h; exact Option.noConfusion h
  | some q =>
    rw [hsp] at h
    simp only [Option.some.injEq] at h
    have hq := splitAtRBracket_length _ q.1 q.2 (by rw [hsp])
    have hrest : rest = q.2 := by
      cases h
      rfl
    subst hrest
    omega

/-- A pattern with none of the glob metacharacters matches exactly itself
(fuel-indexed version, for any adequate fuel). -/
theorem globMatchF_literal :
    ∀ (fuel : Nat) (p s : List Char), p.length + s.length < fuel →
      (∀ c ∈ p, c ≠ '*' ∧ c ≠ '?' ∧ c ≠ '[') →
      globMatchF fuel p s = (p == s)
  | 0, p, s, h, _ => absurd h (by omega)
  | fuel + 1, [], s, _, _ => by cases s <;> simp [globMatchF]
  | fuel + 1, c :: ps, [], _, hp => by
    have hc := hp c (List.mem_cons_self c ps)
    simp only [globMatchF]
    rw [if_neg hc.1]
    simp
  | fuel + 1, c :: ps, d :: cs, hlen, hp => by
    have hc := hp c (List.mem_cons_self c ps)
    have ih := globMatchF_literal fuel ps cs
      (by simp only [List.length_cons] at hlen; omega)
      (fun x hx => hp x (List.mem_cons_of_mem c hx))
    simp only [globMatchF]
    rw [if_neg hc.1, if_neg hc.2.1, if_neg hc.2.2, ih]
    rfl

/-- A pattern with none of the glob metacharacters matches exactly itself. -/
theorem globMatch_literal (p : List Char)
    (hp : ∀ c ∈ p, c ≠ '*' ∧ c ≠ '?' ∧ c ≠ '[') (s : List Char) :
    globMatch p s = (p == s) :=
  globMatchF_literal (p.length + s.length + 1) p s (by omega) hp

/-- `fnmatch.fnmatch(name, pattern)` (POSIX: `normcase` is the identity). -/
def fnmatchF (name pattern : String) : Bool :=
  globMatch pattern.data name.data

/-! ## Path helpers (POSIX semantics of `os.path`) -/

/-- Characters after the last `'/'` (`os.path.basename` on a
forward-slash path, as a character list). -/
def afterLastSlash (l : List Char) : List Char :=
  l.foldl (fun acc c => if c = '/' then [] else acc ++ [c]) []

/-- `os.path.basename` of a forward-slash path. -/
def pyBasename (p : String) : String :=
  ⟨afterLastSlash p.data⟩

/-- Python `str.rstrip('/')`: remove every trailing `'/'`. -/
def rstripSlashes (l : List Char) : List Char :=
  (l.reverse.dropWhile (fun c => c = '/')).reverse

/-- Python `str.endswith('/')`, decided on the character list (the library
`String.endsWith` does not reduce in the kernel). -/
def endsWithSlash (p : String) : Bool :=
  p.data.getLast? == some '/'

/-! ## `scanner.py`: `_is_path_ignored` -/

/-- `scanner._is_path_ignored(relative_path, ignored_patterns)`.

The source first normalizes separators with
`relative_path.replace(os.path.sep, '/')`; on POSIX `os.path.sep` is `'/'`
so that replace is the identity.  Then for each pattern it returns `True` on
a basename `fnmatch`, a full-path `fnmatch`, or -- for a pattern ending in
`'/'` -- when the path starts with the pattern stripped of its trailing
slashes. -/
def _is_path_ignored (relative_path : String) (ignored_patterns : List String) : Bool :=
  let normalized_path := relative_path
  ignored_patterns.any fun pattern =>
    -- Simple name match
    fnmatchF (pyBasename normalized_path) pattern
    -- Full path match
    || fnmatchF normalized_path pattern
    -- Directory content match
    || (endsWithSlash pattern
        && List.isPrefixOf (rstripSlashes pattern.data) normalized_path.data)

/-! ### Facts about the matcher (claim C1) -/

/-- The basename helper never returns a string containing `'/'`. -/
theorem slash_not_mem_afterLastSlash (l : List Char) : '/' ∉ afterLastSlash l := by
  suffices h : ∀ acc : List Char, '/' ∉ acc →
      '/' ∉ l.foldl (fun acc c => if c = '/' then [] else acc ++ [c]) acc from
    h [] (by simp)
  induction l with
  | nil => intro acc hacc; simpa [afterLastSlash] using hacc
  | cons c cs ih =>
    intro acc hacc
    simp only [List.foldl_cons]
    by_cases hc : c = '/'
    · rw [if_pos hc]; exact ih [] (by simp)
    · rw [if_neg hc]
      exact ih (acc ++ [c]) (by simp [hacc, Ne.symm hc])

/-- Characterization of the matcher for the single pattern `"build/"`: it
matches exactly the paths whose text starts with `"build"`. -/
theorem isPathIgnored_build_slash (p : String) :
    _is_path_ignored p ["build/"] = List.isPrefixOf "build".data p.data := by
  have hlit : ∀ c ∈ "build/".data, c ≠ '*' ∧ c ≠ '?' ∧ c ≠ '[' := by decide
  simp only [_is_path_ignored, List.any_cons, List.any_nil, Bool.or_false]
  have h1 : fnmatchF (pyBasename p) "build/" = false := by
    rw [fnmatchF, globMatch_literal _ hlit]
    apply beq_eq_false_iff_ne.2
    intro h
    have : '/' ∈ (pyBasename p).data := by
      rw [← h]; decide
    exact slash_not_mem_afterLastSlash p.data this
  have h2 : rstripSlashes "build/".data = "build".data := by decide
  have h3 : endsWithSlash "build/" = true := by decide
  rw [h1, fnmatchF, globMatch_literal _ hlit, h3, h2]
  simp only [Bool.false_or, Bool.true_and]
  cases hbeq : ("build/".data == p.data) with
  | false => simp
  | true =>
    have : p.data = "build/".data := (beq_iff_eq.1 hbeq).symm
    rw [this]
    decide

/-- C1: with pattern `"build/"` in the ignore set, the relative paths
`build`, `build/out.o` and `build/sub/x` are ignored; `rebuild/out.o` is not
ignored by that pattern; and in general the pattern `"build/"` matches
exactly the relative paths whose text is prefixed by `"build"` (the pattern
with the trailing slash stripped). -/
theorem C1_ignore_matcher_build_slash (ps : List String) (hmem : "build/" ∈ ps) :
    (_is_path_ignored "build" ps = true
      ∧ _is_path_ignored "build/out.o" ps = true
      ∧ _is_path_ignored "build/sub/x" ps = true)
    ∧ _is_path_ignored "rebuild/out.o" ["build/"] = false
    ∧ ∀ p : String, _is_path_ignored p ["build/"]
        = List.isPrefixOf "build".data p.data := by
  refine ⟨⟨?_, ?_, ?_⟩, ?_, isPathIgnored_build_slash⟩
  · exact List.any_eq_true.2 ⟨"build/", hmem, by decide⟩
  · exact List.any_eq_true.2 ⟨"build/", hmem, by decide⟩
  · exact List.any_eq_true.2 ⟨"build/", hmem, by decide⟩
  · rw [isPathIgnored_build_slash]; decide

/-- Witness for C1 at the concrete singleton pattern set `["build/"]`. -/
theorem C1_witness :
    _is_path_ignored "build" ["build/"] = true
    ∧ _is_path_ignored "build/out.o" ["build/"] = true
    ∧ _is_path_ignored "build/sub/x" ["build/"] = true
    ∧ _is_path_ignored "rebuild/out.o" ["build/"] = false := by
  have h := C1_ignore_matcher_build_slash ["build/"] (List.mem_singleton.2 rfl)
  exact ⟨h.1.1, h.1.2.1, h.1.2.2, h.2.1⟩

/-! ## Python dict operations

Association-list model of a Python `dict`.  Keys in a `dict` are unique, so
deletion and assignment are modelled as acting on every matching key (for
lists with unique keys this is the ordinary single-entry update, and it keeps
the lemmas hypothesis-free). -/

/-- `d.get(k)` / `k in d` lookup. -/
def pyDictGet {κ β : Type} [BEq κ] (l : List (κ × β)) (k : κ) : Option β :=
  (l.find? (fun kv => kv.1 == k)).map (fun kv => kv.2)

/-- `d[k] = v`: replace the entry in place if the key is present (dict
iteration order keeps its original position), otherwise append it. -/
def pyDictSet {κ β : Type} [BEq κ] (l : List (κ × β)) (k : κ) (v : β) : List (κ × β) :=
  if (l.find? (fun kv => kv.1 == k)).isSome then
    l.map (fun kv => if kv.1 == k then (k, v) else kv)
  else
    l ++ [(k, v)]

/-- `del d[k]`. -/
def pyDictDel {κ β : Type} [BEq κ] (l : List (κ × β)) (k : κ) : List (κ × β) :=
  l.filter (fun kv => !(kv.1 == k))

/-! ## `caching.py`: `FileDetailCache`

The claims about the cache are about Python reference semantics (`set`
mutates the caller's dict in place and stores it by reference; `get` returns
the stored object, not a copy).  The model therefore keeps the detail dicts
on an explicit heap: a cache value is a reference (heap index), `set`
mutates the heap cell in place, and `get` returns the reference itself.

`os.path.getmtime` is modelled by a function `fs : String → Option Nat`
(`none` = the file does not exist, so `getmtime` raises
`FileNotFoundError`).  `os.path.normcase(os.path.abspath(p))` is the
identity for the already-normalized absolute POSIX paths the claims use. -/

/-- `os.path.normcase(os.path.abspath(p))` on an already-normalized absolute
POSIX path. -/
def pyNormAbs (p : String) : String := p

/-- A detail dict as stored in the cache: the `'mtime'` entry written by
`set` plus all other entries, kept abstract in `rest`. -/
structure DetailRec (α : Type) where
  mtime : Option Nat := none
  rest : α
deriving Repr, DecidableEq

/-- The Python heap of detail dicts; a dict object is an index into it. -/
abbrev Heap (α : Type) : Type := List (DetailRec α)

/-- `FileDetailCache._cache`: normalized path → reference to the dict. -/
abbrev CacheMap : Type := List (String × Nat)

/-- Read the `'mtime'` entry of the dict referenced by `r`
(`cached_data.get('mtime')`). -/
def heapMtime {α : Type} (heap : Heap α) (r : Nat) : Option Nat :=
  match heap.get? r with
  | some d => d.mtime
  | none => none

/-- In-place update `data['mtime'] = t` of the dict referenced by `r`. -/
def heapSetMtime {α : Type} (heap : Heap α) (r : Nat) (t : Nat) : Heap α :=
  match heap.get? r with
  | some d => heap.set r { d with mtime := some t }
  | none => heap

namespace FileDetailCache

/-- `FileDetailCache.get(file_path)`: returns the cached reference on a hit
together with the possibly-updated `_cache`; `none` is a miss.  On
`FileNotFoundError` from `getmtime` the stale entry is deleted; on a
modification-time mismatch the method falls through to its final
`return None` without touching `_cache`. -/
def get {α : Type} (fs : String → Option Nat) (heap : Heap α)
    (cache : CacheMap) (file_path : String) : Option Nat × CacheMap :=
  let norm_path := pyNormAbs file_path
  match pyDictGet cache norm_path with
  | some r =>
    match fs norm_path with
    | some t =>
      -- Invalidate cache if file modification time has changed
      if (some t : Option Nat) == heapMtime heap r then (some r, cache)
      else (none, cache)
    | none =>
      -- If file was deleted, remove it from cache
      (none, pyDictDel cache norm_path)
  | none => (none, cache)

/-- `FileDetailCache.set(file_path, data)`: stats the file, writes the
current modification time into the caller's dict (an in-place mutation of
the heap cell `r`), and stores the reference in `_cache`; if the stat fails
the write is silently dropped. -/
def set {α : Type} (fs : String → Option Nat) (heap : Heap α)
    (cache : CacheMap) (file_path : String) (r : Nat) : Heap α × CacheMap :=
  let norm_path := pyNormAbs file_path
  match fs norm_path with
  | some t =>
    -- Store current modification time for future validation
    (heapSetMtime heap r t, pyDictSet cache norm_path r)
  | none =>
    -- Don't cache a file that doesn't exist
    (heap, cache)

/-- `FileDetailCache.clear()`. -/
def clear (cache : CacheMap) : CacheMap := []

end FileDetailCache

/-! ### dict lemmas -/

/-- Looking up a key right after deleting it misses. -/
theorem pyDictGet_del_self {κ β : Type} [BEq κ] (l : List (κ × β)) (k : κ) :
    pyDictGet (pyDictDel l k) k = none := by
  simp only [pyDictGet, pyDictDel]
  rw [List.find?_eq_none.2]
  · rfl
  · intro kv hkv
    have := List.of_mem_filter hkv
    simp only [Bool.not_eq_true'] at this
    simp [this]

/-- Replacing a present key in place and then looking it up yields the new
value. -/
theorem pyDictGet_map_replace {κ β : Type} [BEq κ] [LawfulBEq κ] (k : κ) (v : β) :
    ∀ l : List (κ × β), (l.find? (fun kv => kv.1 == k)).isSome = true →
      pyDictGet (l.map (fun kv => if kv.1 == k then (k, v) else kv)) k = some v
  | [], h => by simp at h
  | kv :: l, h => by
    by_cases hk : (kv.1 == k) = true
    · simp only [List.map_cons, if_pos hk, pyDictGet, List.find?_cons]
      simp
    · have hk' : (kv.1 == k) = false := by simpa using hk
      have htail : (l.find? (fun kv => kv.1 == k)).isSome = true := by
        simp only [List.find?_cons, hk'] at h
        exact h
      simpa [pyDictGet, List.find?_cons, hk'] using pyDictGet_map_replace k v l htail

/-- Appending a fresh key and then looking it up yields its value. -/
theorem pyDictGet_append_self {κ β : Type} [BEq κ] [LawfulBEq κ] (k : κ) (v : β) :
    ∀ l : List (κ × β), l.find? (fun kv => kv.1 == k) = none →
      pyDictGet (l ++ [(k, v)]) k = some v
  | [], _ => by simp [pyDictGet]
  | kv :: l, h => by
    have hk : (kv.1 == k) = false := by
      by_contra hc
      have hc' : (kv.1 == k) = true := by
        cases hbeq : (kv.1 == k) with
        | false => exact absurd hbeq hc
        | true => rfl
      simp only [List.find?_cons, hc'] at h
      exact Option.noConfusion h
    simp only [List.find?_cons, hk] at h
    simpa [pyDictGet, List.find?_cons, hk] using pyDictGet_append_self k v l h

/-- Looking up a key right after assigning it yields the assigned value. -/
theorem pyDictGet_set_self {κ β : Type} [BEq κ] [LawfulBEq κ]
    (l : List (κ × β)) (k : κ) (v : β) :
    pyDictGet (pyDictSet l k v) k = some v := by
  rw [pyDictSet]
  by_cases h : (l.find? (fun kv => kv.1 == k)).isSome = true
  · rw [if_pos h]
    exact pyDictGet_map_replace k v l h
  · rw [if_neg h]
    exact pyDictGet_append_self k v l
      (Option.not_isSome_iff_eq_none.1 (by simpa using h))

/-! ### Claim C5 (cache invalidation) -/

/-- Fixture: a filesystem where `/proj/f.txt` has modification time 5. -/
def fsMtime5 : String → Option Nat := fun p => if p = "/proj/f.txt" then some 5 else none

/-- Fixture: a filesystem with no files. -/
def fsGone : String → Option Nat := fun _ => none

/-- Fixture heap: one cached dict recording modification time 3. -/
def heapT3 : Heap Nat := [{ mtime := some 3, rest := 0 }]

/-- Fixture cache storing `/proj/f.txt ↦` reference 0. -/
def cacheF : CacheMap := [("/proj/f.txt", 0)]

/-- C5 counterexample: when the stored modification time (3) differs from
the current one (5), `get` returns a miss but the stale entry is **not**
dropped from the cache, contradicting the claim that it is dropped. -/
theorem C5_counterexample :
    (FileDetailCache.get fsMtime5 heapT3 cacheF "/proj/f.txt").1 = none
    ∧ (FileDetailCache.get fsMtime5 heapT3 cacheF "/proj/f.txt").2 = cacheF
    ∧ pyDictGet (FileDetailCache.get fsMtime5 heapT3 cacheF "/proj/f.txt").2
        "/proj/f.txt" ≠ none := by
  refine ⟨by decide, by decide, by decide⟩

/-- C5 (amended): on a modification-time mismatch `get` returns a miss and
leaves the cache unchanged (the stale entry stays); when the file no longer
exists `get` returns a miss and removes the stale entry. -/
theorem C5_cache_invalidation {α : Type} (fs : String → Option Nat)
    (heap : Heap α) (cache : CacheMap) (p : String) (r : Nat)
    (hr : pyDictGet cache p = some r) :
    (∀ t, fs p = some t → (some t : Option Nat) ≠ heapMtime heap r →
      FileDetailCache.get fs heap cache p = (none, cache))
    ∧ (fs p = none →
      FileDetailCache.get fs heap cache p = (none, pyDictDel cache p)
      ∧ pyDictGet (pyDictDel cache p) p = none) := by
  constructor
  · intro t hfs hne
    simp only [FileDetailCache.get, pyNormAbs, hr, hfs]
    rw [if_neg (by simpa using hne)]
  · intro hfs
    exact ⟨by simp only [FileDetailCache.get, pyNormAbs, hr, hfs],
      pyDictGet_del_self cache p⟩

/-- Witness for C5 at the concrete fixtures. -/
theorem C5_witness :
    FileDetailCache.get fsMtime5 heapT3 cacheF "/proj/f.txt" = (none, cacheF)
    ∧ FileDetailCache.get fsGone heapT3 cacheF "/proj/f.txt"
        = (none, pyDictDel cacheF "/proj/f.txt") :=
  ⟨(C5_cache_invalidation fsMtime5 heapT3 cacheF "/proj/f.txt" 0 (by decide)).1
      5 (by decide) (by decide),
    ((C5_cache_invalidation fsGone heapT3 cacheF "/proj/f.txt" 0 (by decide)).2
      (by decide)).1⟩

/-! ### Claim C10 (reference semantics of `set`/`get`) -/

/-- C10: for an existing file, `set` mutates the caller's dict in place by
inserting the current modification time under `'mtime'` (every other field
is untouched), stores the dict by reference, and a subsequent `get` hit
returns that very reference (so mutations of the returned dict alias the
cached entry). -/
theorem C10_cache_set_aliasing {α : Type} (fs : String → Option Nat)
    (heap : Heap α) (cache : CacheMap) (p : String) (r : Nat) (t : Nat)
    (d : DetailRec α) (hfs : fs p = some t) (hd : heap.get? r = some d) :
    (FileDetailCache.set fs heap cache p r).1.get? r
        = some { mtime := some t, rest := d.rest }
    ∧ pyDictGet (FileDetailCache.set fs heap cache p r).2 p = some r
    ∧ FileDetailCache.get fs (FileDetailCache.set fs heap cache p r).1
        (FileDetailCache.set fs heap cache p r).2 p
        = (some r, (FileDetailCache.set fs heap cache p r).2) := by
  have hset : FileDetailCache.set fs heap cache p r
      = (heap.set r { mtime := some t, rest := d.rest }, pyDictSet cache p r) := by
    simp only [FileDetailCache.set, pyNormAbs, hfs, heapSetMtime, hd]
  have hheap : (heap.set r { mtime := some t, rest := d.rest }).get? r
      = some { mtime := some t, rest := d.rest } := by
    rw [List.get?_set_eq, hd]
    rfl
  refine ⟨?_, ?_, ?_⟩
  · rw [hset]
    exact hheap
  · rw [hset]
    exact pyDictGet_set_self cache p r
  · rw [hset]
    simp only [FileDetailCache.get, pyNormAbs, pyDictGet_set_self cache p r, hfs,
      heapMtime, hheap]
    rw [if_pos (by simp)]

/-- Witness for C10 at the concrete fixtures. -/
theorem C10_witness :
    (FileDetailCache.set fsMtime5 heapT3 cacheF "/proj/f.txt" 0).1.get? 0
        = some { mtime := some 5, rest := 0 }
    ∧ pyDictGet (FileDetailCache.set fsMtime5 heapT3 cacheF "/proj/f.txt" 0).2
        "/proj/f.txt" = some 0
    ∧ FileDetailCache.get fsMtime5
        (FileDetailCache.set fsMtime5 heapT3 cacheF "/proj/f.txt" 0).1
        (FileDetailCache.set fsMtime5 heapT3 cacheF "/proj/f.txt" 0).2 "/proj/f.txt"
        = (some 0, (FileDetailCache.set fsMtime5 heapT3 cacheF "/proj/f.txt" 0).2) :=
  C10_cache_set_aliasing fsMtime5 heapT3 cacheF "/proj/f.txt" 0 5
    { mtime := some 3, rest := 0 } (by decide) (by decide)

/-! ## `file_processor_utils.py`: the file classifier

A file on disk is modelled by its observable behaviour towards the code:
its reported size (`os.path.getsize`), its raw bytes (read in `'rb'` mode),
whether opening/reading it in binary mode raises (`IOError` /
`PermissionError`), its decoded text (read with `encoding='utf-8',
errors='ignore'`, which never raises on bad bytes), and whether the
text-mode open/read raises `OSError` (carrying the exception text). -/

/-- Observable behaviour of one file on disk. -/
structure FileAttr where
  size : Nat
  bytes : List Nat
  sniffErr : Bool
  content : List Char
  readErr : Option String
deriving Repr, DecidableEq

/-- `_is_binary_file(filepath, chunk_size)`: `b'\0' in f.read(chunk_size)`,
with any `IOError`/`PermissionError` treated as binary.  All callers use the
default `chunk_size=1024`. -/
def _is_binary_file (f : FileAttr) (chunk_size : Nat) : Bool :=
  if f.sniffErr then true
  else (f.bytes.take chunk_size).contains 0

/-- C8: the binary sniff depends only on the first 1024 bytes (and whether
the binary-mode read raises); absent an I/O error it reports binary exactly
when a null byte occurs in that prefix; an I/O error is classified binary. -/
theorem C8_binary_sniff (f g : FileAttr) :
    (f.sniffErr = g.sniffErr → f.bytes.take 1024 = g.bytes.take 1024 →
      _is_binary_file f 1024 = _is_binary_file g 1024)
    ∧ (f.sniffErr = false →
        (_is_binary_file f 1024 = true ↔ (0 : Nat) ∈ f.bytes.take 1024))
    ∧ (f.sniffErr = true → _is_binary_file f 1024 = true) := by
  refine ⟨?_, ?_, ?_⟩
  · intro hs hb
    simp only [_is_binary_file, hs, hb]
  · intro hs
    simp [_is_binary_file, hs]
  · intro hs
    simp [_is_binary_file, hs]

/-- Fixture: 2000 bytes of `'A'`, text readable. -/
def fileAllA : FileAttr :=
  { size := 2000, bytes := List.replicate 2000 65, sniffErr := false,
    content := [], readErr := none }

/-- Fixture: like `fileAllA` in its first 1024 bytes, with a null byte
beyond them. -/
def fileLateNull : FileAttr :=
  { size := 1500, bytes := List.replicate 1024 65 ++ [0], sniffErr := false,
    content := [], readErr := none }

/-- Fixture: a one-byte file holding a null byte. -/
def fileNullByte : FileAttr :=
  { size := 1, bytes := [0], sniffErr := false, content := [], readErr := none }

/-- Fixture: a file whose binary-mode open raises. -/
def fileSniffErr : FileAttr :=
  { size := 1, bytes := [65], sniffErr := true, content := [], readErr := none }

/-- Witness for C8 at concrete files (two agreeing on the first 1024 bytes,
one with a null byte, one with a sniff error). -/
theorem C8_witness :
    _is_binary_file fileAllA 1024 = _is_binary_file fileLateNull 1024
    ∧ (_is_binary_file fileNullByte 1024 = true
        ↔ (0 : Nat) ∈ fileNullByte.bytes.take 1024)
    ∧ _is_binary_file fileSniffErr 1024 = true := by
  refine ⟨?_, ?_, ?_⟩
  · refine (C8_binary_sniff fileAllA fileLateNull).1 rfl ?_
    have h1 : fileAllA.bytes.take 1024 = List.replicate 1024 (65 : Nat) := by
      show (List.replicate 2000 (65 : Nat)).take 1024 = _
      rw [List.take_replicate]
      norm_num
    have h2 : fileLateNull.bytes.take 1024 = List.replicate 1024 (65 : Nat) := by
      show (List.replicate 1024 (65 : Nat) ++ [0]).take 1024 = _
      rw [List.take_append_of_le_length
        (by simp only [List.length_replicate]; exact Nat.le_refl _)]
      rw [List.take_replicate]
      norm_num
    rw [h1, h2]
  · exact (C8_binary_sniff fileNullByte fileNullByte).2.1 rfl
  · exact (C8_binary_sniff fileSniffErr fileSniffErr).2.2 rfl

/-! ## Line counting

`_process_file_for_scan` and `_read_file_content_worker` compute
`content.count('\n') + 1`; `scan_directory` computes `sum(1 for _ in f)`,
the number of lines Python's text-mode line iteration yields. -/

mutual

/-- Number of lines Python's text-mode iteration yields: lines are the
maximal chunks ending in `'\n'` plus a final unterminated chunk if any;
an empty file yields zero lines. -/
def pyLineCount : List Char → Nat
  | [] => 0
  | c :: cs => if c = '\n' then 1 + pyLineCount cs else pyLineCountRest cs

/-- Helper: number of lines when already inside an unterminated line. -/
def pyLineCountRest : List Char → Nat
  | [] => 1
  | c :: cs => if c = '\n' then 1 + pyLineCount cs else pyLineCountRest cs

end

/-- Closed form of the line-iteration count: the number of `'\n'`
terminators, plus one when the content is non-empty and does not end in a
terminator. -/
theorem pyLineCount_closed : ∀ cs : List Char,
    pyLineCount cs = cs.count '\n'
      + (if cs = [] ∨ cs.getLast? = some '\n' then 0 else 1)
    ∧ pyLineCountRest cs = cs.count '\n'
      + (if cs.getLast? = some '\n' then 0 else 1) := by
  intro cs
  induction cs with
  | nil => simp [pyLineCount, pyLineCountRest]
  | cons c cs ih =>
    obtain ⟨ih1, ih2⟩ := ih
    -- On a cons both functions compute the same expression, so prove it once.
    have hgoal : (if c = '\n' then 1 + pyLineCount cs else pyLineCountRest cs)
        = (c :: cs).count '\n'
          + (if (c :: cs).getLast? = some '\n' then 0 else 1) := by
      by_cases hc : c = '\n'
      · subst hc
        rw [if_pos rfl, ih1]
        cases cs with
        | nil => decide
        | cons d ds =>
          have hne : (d :: ds : List Char) ≠ [] := List.cons_ne_nil d ds
          by_cases hl : (d :: ds).getLast? = some '\n'
          · simp [List.count_cons, List.getLast?_cons_cons, hl, hne]
            omega
          · simp [List.count_cons, List.getLast?_cons_cons, hl, hne]
            omega
      · have hbeq : (c == '\n') = false := by simp [hc]
        rw [if_neg hc, ih2]
        cases cs with
        | nil => simp [List.count_cons, hbeq, hc]
        | cons d ds =>
          by_cases hl : (d :: ds).getLast? = some '\n'
          · simp [List.count_cons, List.getLast?_cons_cons, hl, hbeq]
          · simp [List.count_cons, List.getLast?_cons_cons, hl, hbeq]
    have hcne : (c :: cs : List Char) ≠ [] := List.cons_ne_nil c cs
    constructor
    · show (if c = '\n' then 1 + pyLineCount cs else pyLineCountRest cs) = _
      rw [hgoal]
      congr 1
      simp [hcne]
    · exact hgoal

/-! ## `scanner.py`: `_process_file_for_scan` -/

/-- The details dict built by `_process_file_for_scan`; all four keys are
always present (they are initialized to `None`). -/
structure ScanDetails where
  line_count : Option Nat := none
  char_count : Option Nat := none
  error : Option String := none
  content : Option (List Char) := none
deriving Repr, DecidableEq

/-- A file access the classifier can perform; `openFullRead` is the
text-mode `open(file_path, 'r', ...)` for reading the whole content. -/
inductive FileAccess where
  | statSize
  | sniff
  | openFullRead
deriving Repr, DecidableEq

/-- `scanner._process_file_for_scan(file_path)`: size check, binary sniff,
then a full text read computing content, `count('\n') + 1` lines and the
character count; `OSError`/`FileProcessingError` is recorded in
`details['error']`.  The second component lists the file accesses the run
performed, in order. -/
def _process_file_for_scan (f : FileAttr) : ScanDetails × List FileAccess :=
  if f.size > MAX_FILE_SIZE_BYTES then
    ({ error := some ("> " ++ toString MAX_FILE_SIZE_MB ++ "MB") },
      [FileAccess.statSize])
  else if _is_binary_file f 1024 then
    ({ error := some "binary" }, [FileAccess.statSize, FileAccess.sniff])
  else
    match f.readErr with
    | some e =>
      ({ error := some e },
        [FileAccess.statSize, FileAccess.sniff, FileAccess.openFullRead])
    | none =>
      ({ content := some f.content,
         line_count := some (f.content.count '\n' + 1),
         char_count := some f.content.length },
        [FileAccess.statSize, FileAccess.sniff, FileAccess.openFullRead])

/-- An oversized file is classified `FileTooLarge` ("> 10MB") with no
binary sniff and no full-content read. -/
theorem process_file_too_large (f : FileAttr) (h : f.size > MAX_FILE_SIZE_BYTES) :
    (_process_file_for_scan f).1.error = some "> 10MB"
    ∧ (_process_file_for_scan f).1.content = none
    ∧ FileAccess.openFullRead ∉ (_process_file_for_scan f).2
    ∧ FileAccess.sniff ∉ (_process_file_for_scan f).2 := by
  have hres : _process_file_for_scan f
      = ({ error := some ("> " ++ toString MAX_FILE_SIZE_MB ++ "MB") },
          [FileAccess.statSize]) := by
    simp only [_process_file_for_scan, if_pos h]
  rw [hres]
  exact ⟨by decide, by decide, by decide, by decide⟩

/-! ## `generator.py`: `_read_file_content_worker`

The details dict built by the generation-phase worker; unlike the scan-phase
worker it has no size or binary check, and its key set differs between the
success and error paths, so keys are modelled with an outer `Option` (key
present?) around the value (`none` = Python `None`).  The `mtime` key is the
one `FileDetailCache.set` adds to the same dict. -/

/-- A generation-phase details dict (string keys with optional presence). -/
structure GDet where
  path : Option String := none
  content : Option (Option (List Char)) := none
  line_count : Option (Option Nat) := none
  error : Option (Option String) := none
  mtime : Option (Option Nat) := none
deriving Repr, DecidableEq

/-- `generator._read_file_content_worker(file_path, cache)` without its
final `cache.set` call (performed by the caller model): a plain full
text-mode read; on success the dict holds content, `count('\n') + 1` lines
and `error=None`; on `OSError` it holds `content=None` and the error text
(and no `line_count` key).  The access list records the full-read open. -/
def _read_file_content_worker (f : FileAttr) : GDet × List FileAccess :=
  match f.readErr with
  | none =>
    ({ content := some (some f.content),
       line_count := some (some (f.content.count '\n' + 1)),
       error := some none }, [FileAccess.openFullRead])
  | some e =>
    ({ content := some none, error := some (some e) }, [FileAccess.openFullRead])

/-! ## Filesystem and tree-node model

The filesystem a scan walks: named files with their `FileAttr` behaviour and
named directories with entry lists (in `os.listdir` order).  A custom list
type keeps all recursions structural, so every scanner evaluates in the
kernel. -/

mutual

/-- A filesystem subtree as the scanners observe it. -/
inductive PyFS where
  | file (name : String) (attr : FileAttr)
  | dir (name : String) (entries : PyFSList)

/-- Directory entries in `os.listdir` order. -/
inductive PyFSList where
  | nil
  | cons (e : PyFS) (rest : PyFSList)

end

/-- Name of a filesystem entry. -/
def PyFS.name : PyFS → String
  | .file n _ => n
  | .dir n _ => n

/-- `os.path.isdir` of a filesystem entry. -/
def PyFS.isDir : PyFS → Bool
  | .file _ _ => false
  | .dir _ _ => true

/-- The non-recursive fields of a scanner node dict.  Keys whose presence
differs between code paths are an `Option` around the value. -/
structure NodeInfo where
  path : List String
  name : String
  is_dir : Bool
  is_ignored : Bool
  line_count : Option (Option Nat) := none
  char_count : Option (Option Nat) := none
  error : Option (Option String) := none
  content : Option (Option (List Char)) := none
deriving Repr, DecidableEq

mutual

/-- A scanner tree node: its dict fields plus the `'children'` key
(`none` = the dict has no such key). -/
inductive PyNode where
  | mk (info : NodeInfo) (children : Option PyNodeList)

/-- A list of sibling nodes. -/
inductive PyNodeList where
  | nil
  | cons (n : PyNode) (rest : PyNodeList)

end

/-- The dict fields of a node. -/
def PyNode.info : PyNode → NodeInfo
  | .mk i _ => i

/-- The `'children'` entry of a node (`none` = key absent). -/
def PyNode.children : PyNode → Option PyNodeList
  | .mk _ c => c

mutual

/-- Every node of a tree (the node itself and all descendants). -/
def PyNode.allNodes : PyNode → List PyNode
  | PyNode.mk info children =>
    PyNode.mk info children ::
      (match children with
       | some l => PyNodeList.allNodes l
       | none => [])

/-- Every node of a sibling list. -/
def PyNodeList.allNodes : PyNodeList → List PyNode
  | PyNodeList.nil => []
  | PyNodeList.cons n rest => PyNode.allNodes n ++ PyNodeList.allNodes rest

end

/-! ### Sorting children

Both scanners sort siblings by the key `(not is_dir, name.lower())` --
`scan_directory` sorts the `os.listdir` names before scanning them (the key
uses `os.path.isdir` of the entry) and `scan_directory_fast` sorts the
assembled child nodes.  Scanning maps an entry to a node with the same name
and directory flag, so sorting the scanned nodes with the same stable sort
yields exactly the list the source builds; a stable insertion sort models
Python's stable `sort`/`sorted`. -/

/-- `key(a) ≤ key(b)` for the sibling sort: directories first, then
case-insensitive names ascending. -/
def nodeKeyLe (a b : PyNode) : Bool :=
  (a.info.is_dir && !b.info.is_dir)
  || ((a.info.is_dir == b.info.is_dir)
      && decide (a.info.name.toLower ≤ b.info.name.toLower))

/-- Stable insertion into a sorted sibling list. -/
def nodeInsertLe (x : PyNode) : PyNodeList → PyNodeList
  | PyNodeList.nil => PyNodeList.cons x PyNodeList.nil
  | PyNodeList.cons y ys =>
    if nodeKeyLe x y then PyNodeList.cons x (PyNodeList.cons y ys)
    else PyNodeList.cons y (nodeInsertLe x ys)

/-- Stable sort of a sibling list by `nodeKeyLe`. -/
def nodeSortList : PyNodeList → PyNodeList
  | PyNodeList.nil => PyNodeList.nil
  | PyNodeList.cons x xs => nodeInsertLe x (nodeSortList xs)

/-! ## `scanner.py`: `scan_directory` (the recursive variant)

`scan_directory(path, ignored_items, cancel_event)` with
`cancel_event = None` (both cancellation guards are then `False`).  File
dicts carry `path`, `name`, `is_dir`, `is_ignored`, `children: []`,
`line_count: None`, `error: None`; the line count of a readable text file is
`sum(1 for _ in f)`, the line-iteration count.  `ignored_items` matching is
exact name membership.  `PermissionError`/`FileNotFoundError` during
`listdir` are not modelled (every directory in `PyFS` is listable). -/

mutual

/-- `scanner.scan_directory` on a filesystem subtree. -/
def scan_directory (parent : List String) (ignored_items : List String) :
    PyFS → PyNode
  | PyFS.file item_name attr =>
    let is_ignored := ignored_items.contains item_name
    let base : NodeInfo :=
      { path := parent ++ [item_name], name := item_name, is_dir := false,
        is_ignored := is_ignored, line_count := some none, error := some none }
    if is_ignored then PyNode.mk base (some PyNodeList.nil)
    else if attr.size > MAX_FILE_SIZE_BYTES then
      PyNode.mk
        { base with error := some (some ("> " ++ toString MAX_FILE_SIZE_MB ++ "MB")) }
        (some PyNodeList.nil)
    else if _is_binary_file attr 1024 then
      PyNode.mk { base with error := some (some "binary") } (some PyNodeList.nil)
    else
      match attr.readErr with
      | some e => PyNode.mk { base with error := some (some e) } (some PyNodeList.nil)
      | none =>
        PyNode.mk { base with line_count := some (some (pyLineCount attr.content)) }
          (some PyNodeList.nil)
  | PyFS.dir item_name entries =>
    let is_ignored := ignored_items.contains item_name
    if is_ignored then
      PyNode.mk
        { path := parent ++ [item_name], name := item_name, is_dir := true,
          is_ignored := true }
        (some PyNodeList.nil)
    else
      -- items = sorted(os.listdir(...), key=(not isdir, lower)); children are
      -- scanned in that order, i.e. the scanned nodes in that stable order.
      PyNode.mk
        { path := parent ++ [item_name], name := item_name, is_dir := true,
          is_ignored := false }
        (some (nodeSortList
          (scanChildren (parent ++ [item_name]) ignored_items entries)))

/-- Scan each entry of a directory (every child dict is truthy, so each is
appended). -/
def scanChildren (parent : List String) (ignored_items : List String) :
    PyFSList → PyNodeList
  | PyFSList.nil => PyNodeList.nil
  | PyFSList.cons e rest =>
    PyNodeList.cons (scan_directory parent ignored_items e)
      (scanChildren parent ignored_items rest)

end

/-! ### Claims C4 and C9: counterexample fixtures on the recursive scanner -/

/-- A plain readable text file with the given content. -/
def attrText (content : List Char) : FileAttr :=
  { size := content.length, bytes := [], sniffErr := false,
    content := content, readErr := none }

/-- Fixture: a directory holding one empty file. -/
def fsEmptyFile : PyFS :=
  PyFS.dir "r" (PyFSList.cons (PyFS.file "e.txt" (attrText [])) PyFSList.nil)

/-- C4 counterexample: `scan_directory` classifies the empty file
successfully but records line count 0, not the claimed
`terminators + 1 = 1`. -/
theorem C4_counterexample :
    ∃ n ∈ PyNode.allNodes (scan_directory [] [] fsEmptyFile),
      n.info.is_dir = false ∧ n.info.error = some none
      ∧ n.info.line_count = some (some 0)
      ∧ n.info.line_count ≠ some (some (([] : List Char).count '\n' + 1)) := by
  decide

/-- C4 (amended): the pool workers `_process_file_for_scan` and
`_read_file_content_worker` record `count('\n') + 1` lines (so 1 for empty
and for terminator-free non-empty content), while `scan_directory` records
the line-iteration count: terminators, plus one only for non-empty content
not ending in a terminator (0 for an empty file). -/
theorem C4_line_count_convention (f : FileAttr)
    (hsize : ¬ f.size > MAX_FILE_SIZE_BYTES)
    (hbin : _is_binary_file f 1024 = false)
    (hread : f.readErr = none) :
    (_process_file_for_scan f).1.line_count = some (f.content.count '\n' + 1)
    ∧ (_read_file_content_worker f).1.line_count
        = some (some (f.content.count '\n' + 1))
    ∧ pyLineCount f.content
        = f.content.count '\n'
          + (if f.content = [] ∨ f.content.getLast? = some '\n' then 0 else 1) := by
  refine ⟨?_, ?_, (pyLineCount_closed f.content).1⟩
  · simp only [_process_file_for_scan, if_neg hsize, hbin, Bool.false_eq_true,
      if_false, hread]
  · simp only [_read_file_content_worker, hread]

/-- Witness for C4 (amended) at the two-character file `"hi"`. -/
theorem C4_witness :
    (_process_file_for_scan (attrText ['h', 'i'])).1.line_count = some 1
    ∧ (_read_file_content_worker (attrText ['h', 'i'])).1.line_count
        = some (some 1)
    ∧ pyLineCount ['h', 'i'] = 1 := by
  have h := C4_line_count_convention (attrText ['h', 'i'])
    (by decide) (by decide) (by decide)
  refine ⟨?_, ?_, ?_⟩
  · rw [h.1]; decide
  · rw [h.2.1]; decide
  · have h3 : pyLineCount (attrText ['h', 'i']).content = 1 := by
      rw [h.2.2]; decide
    exact h3

/-- Fixture: a directory holding one readable one-line file. -/
def fsOneFile : PyFS :=
  PyFS.dir "r" (PyFSList.cons (PyFS.file "a.txt" (attrText ['h', 'i'])) PyFSList.nil)

/-- C9 counterexample: in a `scan_directory` tree a file node also carries a
`children` sequence (an empty one), so "`isDirectory` iff the node has a
children sequence" fails. -/
theorem C9_counterexample :
    ¬ (∀ n ∈ PyNode.allNodes (scan_directory [] [] fsOneFile),
        n.info.is_dir = true ↔ (PyNode.children n).isSome = true) := by
  decide

/-! ## `scanner.py`: `scan_directory_fast`

The concurrent scanner.  Relative paths are lists of segments (the scan
root is `[]`); `nodes` is the insertion-ordered dict from relative path to
node; `os.walk(..., topdown=True)` visits a directory, then each non-pruned
subdirectory depth-first in listing order.

The `threading.Event` cancellation token is modelled by the tick at which it
becomes set: `is_set()` polls are numbered 0, 1, 2, … in execution order,
and `cancelAt = some t` means every poll from tick `t` on observes the event
set (a real `Event`, once set, stays set); `none` means it is never set.

The walk recursion is fuel-indexed (the interleaving of a directory's body
and its subtree walks is not structural); `fsWeight` fuel is always enough
(`walk_isSome_of_fuel`). -/

/-- `cancel_event.is_set()` at poll tick `k`. -/
def cancelSetAt (cancelAt : Option Nat) (k : Nat) : Bool :=
  match cancelAt with
  | some t => decide (t ≤ k)
  | none => false

/-- Forward-slash join of path segments (`os.path.relpath` output). -/
def joinSlash (segs : List String) : String :=
  String.intercalate "/" segs

/-- Walk state: the `nodes` dict, the eligible-files list handed to the
worker pool (with each file's attributes), and the cancellation-poll tick. -/
structure WalkSt where
  nodes : List (List String × PyNode)
  toProcess : List (List String × FileAttr)
  tick : Nat

/-- A freshly created directory node (`'children': []`). -/
def mkDirNode (key : List String) (name : String) (ign : Bool) : PyNode :=
  PyNode.mk
    { path := key, name := name, is_dir := true, is_ignored := ign }
    (some PyNodeList.nil)

/-- A freshly created file node (no `'children'` key, no detail keys). -/
def mkFileNode (key : List String) (name : String) (ign : Bool) : PyNode :=
  PyNode.mk
    { path := key, name := name, is_dir := false, is_ignored := ign }
    none

/-- `for dir_name in list(dirs): …` — add a node for every subdirectory
(ignored ones marked and pruned from traversal). -/
def addSubdirNodes (pats : List String) (relP : List String) :
    PyFSList → List (List String × PyNode) → List (List String × PyNode)
  | PyFSList.nil, nodes => nodes
  | PyFSList.cons e rest, nodes =>
    match e with
    | PyFS.file _ _ => addSubdirNodes pats relP rest nodes
    | PyFS.dir d _ =>
      let key := relP ++ [d]
      let is_ignored := _is_path_ignored (joinSlash key) pats
      addSubdirNodes pats relP rest (pyDictSet nodes key (mkDirNode key d is_ignored))

/-- `for file_name in files: …` — add a node for every file and queue the
non-ignored ones for classification. -/
def addFileNodes (pats : List String) (relP : List String) :
    PyFSList → List (List String × PyNode) → List (List String × FileAttr) →
      List (List String × PyNode) × List (List String × FileAttr)
  | PyFSList.nil, nodes, toP => (nodes, toP)
  | PyFSList.cons e rest, nodes, toP =>
    match e with
    | PyFS.dir _ _ => addFileNodes pats relP rest nodes toP
    | PyFS.file fname attr =>
      let key := relP ++ [fname]
      let is_ignored := _is_path_ignored (joinSlash key) pats
      addFileNodes pats relP rest
        (pyDictSet nodes key (mkFileNode key fname is_ignored))
        (if is_ignored then toP else toP ++ [(key, attr)])

mutual

/-- One `os.walk` visit of a (non-pruned) directory followed by the visits
of its subtree, with a cancellation poll first; `none` = the scan returned
`None` after observing the cancellation event. -/
def walkDirF (pats : List String) (cAt : Option Nat) :
    Nat → List String → String → PyFSList → WalkSt → Option WalkSt
  | 0, _, _, _, _ => none
  | fuel + 1, relP, name, entries, st =>
    if cancelSetAt cAt st.tick then none
    -- `if relative_root != '.' and _is_path_ignored(...)`: prune and skip
    -- (subdirectories are already pruned before being walked, so this
    -- fires only in degenerate cases; kept as in the source)
    else if relP ≠ [] ∧ _is_path_ignored (joinSlash relP) pats then
      some { st with tick := st.tick + 1 }
    else
      -- add the directory node for the current root, if absent (it is
      -- present for every directory except the scan root), then the
      -- subdirectory nodes, then the file nodes, then walk the subtrees
      walkSubsF pats cAt fuel relP entries
        { nodes :=
            (addFileNodes pats relP entries
              (addSubdirNodes pats relP entries
                (if (pyDictGet st.nodes relP).isSome then st.nodes
                 else st.nodes ++ [(relP, mkDirNode relP name false)]))
              st.toProcess).1,
          toProcess :=
            (addFileNodes pats relP entries
              (addSubdirNodes pats relP entries
                (if (pyDictGet st.nodes relP).isSome then st.nodes
                 else st.nodes ++ [(relP, mkDirNode relP name false)]))
              st.toProcess).2,
          tick := st.tick + 1 }

/-- Walk the non-pruned subdirectories of the current directory, in listing
order. -/
def walkSubsF (pats : List String) (cAt : Option Nat) :
    Nat → List String → PyFSList → WalkSt → Option WalkSt
  | 0, _, _, _ => none
  | _ + 1, _, PyFSList.nil, st => some st
  | fuel + 1, relP, PyFSList.cons e rest, st =>
    match e with
    | PyFS.file _ _ => walkSubsF pats cAt fuel relP rest st
    | PyFS.dir d sub =>
      if _is_path_ignored (joinSlash (relP ++ [d])) pats then
        walkSubsF pats cAt fuel relP rest st
      else
        (walkDirF pats cAt fuel (relP ++ [d]) d sub st).bind
          (fun st2 => walkSubsF pats cAt fuel relP rest st2)

end

mutual

/-- Fuel that always suffices for the walk of one subtree. -/
def fsWeight : PyFS → Nat
  | PyFS.file _ _ => 1
  | PyFS.dir _ entries => fsListWeight entries + 2

/-- Fuel that always suffices for walking a sibling list. -/
def fsListWeight : PyFSList → Nat
  | PyFSList.nil => 1
  | PyFSList.cons e rest => fsWeight e + fsListWeight rest + 1

end

/-- `nodes[norm_path].update(details)`: merge the classification result into
the node dict (all four detail keys become present). -/
def nodeApplyDetails (n : PyNode) (d : ScanDetails) : PyNode :=
  PyNode.mk
    { n.info with
        line_count := some d.line_count
        char_count := some d.char_count
        error := some d.error
        content := some d.content }
    n.children

/-- `if norm_path in nodes: nodes[norm_path].update(details)` (updating in
place, a no-op when the key is absent). -/
def nodesUpdate (nodes : List (List String × PyNode)) (key : List String)
    (d : ScanDetails) : List (List String × PyNode) :=
  nodes.map (fun kv => if kv.1 == key then (kv.1, nodeApplyDetails kv.2 d) else kv)

/-- Harvest the worker results (here in submission order; completion order
does not matter because each result is written under its own key), with a
cancellation poll before each. -/
def harvestF (cAt : Option Nat) :
    List (List String × FileAttr) → List (List String × PyNode) → Nat →
      Option (List (List String × PyNode) × Nat)
  | [], nodes, tick => some (nodes, tick)
  | (key, attr) :: rest, nodes, tick =>
    if cancelSetAt cAt tick then none
    else
      harvestF cAt rest (nodesUpdate nodes key (_process_file_for_scan attr).1)
        (tick + 1)

/-- The entries linked as children of `key`: every non-root node whose
parent path is `key`, in `nodes` iteration order. -/
def childEntries (nodes : List (List String × PyNode)) (key : List String) :
    List (List String × PyNode) :=
  nodes.filter (fun kv => !(kv.1 == ([] : List String)) && (kv.1.dropLast == key))

/-- A `List` of nodes as a sibling list. -/
def nlOfList : List PyNode → PyNodeList
  | [] => PyNodeList.nil
  | n :: rest => PyNodeList.cons n (nlOfList rest)

/-- Append a list of nodes to a sibling list. -/
def nodeListAppend (l : PyNodeList) (ns : List PyNode) : PyNodeList :=
  match l with
  | PyNodeList.nil => nlOfList ns
  | PyNodeList.cons x xs => PyNodeList.cons x (nodeListAppend xs ns)

/-- `sort_children_recursive` at one node: sort the children when the node
is a directory and has a `children` key. -/
def sortNodeChildren (n : PyNode) : PyNode :=
  match n.children with
  | some l =>
    if n.info.is_dir then PyNode.mk n.info (some (nodeSortList l)) else n
  | none => n

/-- Resolve the flat `nodes` dict into a tree below `key`: attach the linked
children (`setdefault('children', []).append(child)` touches the dict only
when a child exists), resolve them recursively, and sort
(`sort_children_recursive`).  Fuel-indexed; child keys are one segment
longer than their parent's, so `longest key + 2` fuel always suffices. -/
def resolveNodeF (nodes : List (List String × PyNode)) :
    Nat → List String → PyNode → PyNode
  | 0, _, n => n
  | fuel + 1, key, n =>
    let kids := childEntries nodes key
    let resolved := kids.map (fun kv => resolveNodeF nodes fuel kv.1 kv.2)
    let n' :=
      match kids with
      | [] => n
      | _ =>
        PyNode.mk n.info
          (some (nodeListAppend (n.children.getD PyNodeList.nil) resolved))
    sortNodeChildren n'

/-- Fuel bound for `resolveNodeF`: beyond the longest key no chain of
parent-child keys can continue. -/
def resolveFuel (nodes : List (List String × PyNode)) : Nat :=
  (nodes.map (fun kv => kv.1.length)).foldr max 0 + 2

/-- `scanner.scan_directory_fast(path, ignored_items, cancel_event)`:
`None` when the root is not a directory or when a cancellation poll
observes the event; otherwise the assembled, recursively sorted tree. -/
def scan_directory_fast (fs : PyFS) (ignored_items : List String)
    (cancelAt : Option Nat) : Option PyNode :=
  match fs with
  | PyFS.file _ _ => none
  | PyFS.dir name entries =>
    match walkDirF ignored_items cancelAt (fsWeight (PyFS.dir name entries))
        [] name entries { nodes := [], toProcess := [], tick := 0 } with
    | none => none
    | some st =>
      match harvestF cancelAt st.toProcess st.nodes st.tick with
      | none => none
      | some (nodes, _) =>
        match pyDictGet nodes ([] : List String) with
        | some root => some (resolveNodeF nodes (resolveFuel nodes) [] root)
        | none => none

/-! ### Claim C7: cancellation -/

/-- At every fuel, a walk under a cancellation token either returns the
cancelled indicator `none` or returns exactly what the uncancelled walk
returns — never partial data. -/
theorem walk_cancel_or_agrees (pats : List String) (cAt : Option Nat) :
    ∀ fuel : Nat,
      (∀ relP name entries st,
        walkDirF pats cAt fuel relP name entries st = none
        ∨ walkDirF pats cAt fuel relP name entries st
            = walkDirF pats none fuel relP name entries st)
      ∧ (∀ relP entries st,
        walkSubsF pats cAt fuel relP entries st = none
        ∨ walkSubsF pats cAt fuel relP entries st
            = walkSubsF pats none fuel relP entries st) := by
  intro fuel
  induction fuel with
  | zero => exact ⟨fun _ _ _ _ => Or.inl rfl, fun _ _ _ => Or.inl rfl⟩
  | succ fuel ih =>
    constructor
    · intro relP name entries st
      by_cases hc : cancelSetAt cAt st.tick = true
      · left
        simp [walkDirF, hc]
      · have hc' : cancelSetAt cAt st.tick = false := by
          cases h : cancelSetAt cAt st.tick with
          | false => rfl
          | true => exact absurd h hc
        have hn : cancelSetAt none st.tick = false := rfl
        simp only [walkDirF, hc', hn, Bool.false_eq_true, if_false]
        by_cases hskip : relP ≠ [] ∧ _is_path_ignored (joinSlash relP) pats = true
        · right
          rw [if_pos hskip, if_pos hskip]
        · rw [if_neg hskip, if_neg hskip]
          exact ih.2 relP entries _
    · intro relP entries st
      cases entries with
      | nil => right; rfl
      | cons e rest =>
        cases e with
        | file fname attr =>
          simp only [walkSubsF]
          exact ih.2 relP rest st
        | dir d sub =>
          simp only [walkSubsF]
          by_cases hig : _is_path_ignored (joinSlash (relP ++ [d])) pats = true
          · rw [if_pos hig, if_pos hig]
            exact ih.2 relP rest st
          · rw [if_neg hig, if_neg hig]
            rcases ih.1 (relP ++ [d]) d sub st with hw | hw
            · left
              rw [hw]
              rfl
            · rw [hw]
              cases hwn : walkDirF pats none fuel (relP ++ [d]) d sub st with
              | none => left; rfl
              | some st' => exact ih.2 relP rest st'

/-- At every harvest checkpoint, a cancelled run either returns `none` or
agrees with the uncancelled run. -/
theorem harvest_cancel_or_agrees (cAt : Option Nat) :
    ∀ toP nodes tick,
      harvestF cAt toP nodes tick = none
      ∨ harvestF cAt toP nodes tick = harvestF none toP nodes tick := by
  intro toP
  induction toP with
  | nil => intro nodes tick; right; rfl
  | cons kv rest ih =>
    intro nodes tick
    obtain ⟨key, attr⟩ := kv
    by_cases hc : cancelSetAt cAt tick = true
    · left
      simp [harvestF, hc]
    · have hc' : cancelSetAt cAt tick = false := by
        cases h : cancelSetAt cAt tick with
        | false => rfl
        | true => exact absurd h hc
      have hn : cancelSetAt none tick = false := rfl
      simp only [harvestF, hc', hn, Bool.false_eq_true, if_false]
      exact ih _ _

/-- C7: a scan that observes its cancellation token returns the cancelled
indicator (`None`) and never a partial tree: any run with a cancellation
token either returns `none` or returns precisely the uncancelled scan's
tree, and a token observed set at the very first directory-entry checkpoint
makes the scan return `none`. -/
theorem C7_cancelled_scan_returns_none (fs : PyFS) (pats : List String)
    (cancelAt : Option Nat) :
    (scan_directory_fast fs pats cancelAt = none
      ∨ scan_directory_fast fs pats cancelAt = scan_directory_fast fs pats none)
    ∧ (∀ name entries,
        scan_directory_fast (PyFS.dir name entries) pats (some 0) = none) := by
  constructor
  · cases fs with
    | file n a => left; rfl
    | dir name entries =>
      rcases (walk_cancel_or_agrees pats cancelAt
          (fsWeight (PyFS.dir name entries))).1 [] name entries
          { nodes := [], toProcess := [], tick := 0 } with hw | hw
      · left
        simp [scan_directory_fast, hw]
      · cases hwn : walkDirF pats none (fsWeight (PyFS.dir name entries))
            [] name entries { nodes := [], toProcess := [], tick := 0 } with
        | none =>
          left
          rw [hwn] at hw
          simp [scan_directory_fast, hw]
        | some st =>
          rw [hwn] at hw
          rcases harvest_cancel_or_agrees cancelAt st.toProcess st.nodes st.tick
            with hh | hh
          · left
            simp [scan_directory_fast, hw, hh]
          · right
            simp [scan_directory_fast, hw, hwn, hh]
  · intro name entries
    have hzero : cancelSetAt (some 0) 0 = true := rfl
    have hw : walkDirF pats (some 0) (fsWeight (PyFS.dir name entries))
        [] name entries { nodes := [], toProcess := [], tick := 0 } = none := by
      have hfw : fsWeight (PyFS.dir name entries) = fsListWeight entries + 2 := rfl
      rw [hfw]
      simp [walkDirF, hzero]
    simp [scan_directory_fast, hw]

/-! ### Claim C9: the children invariant

The counterexample above shows the claimed equivalence fails for
`scan_directory` (files carry an empty children list).  The amended claim
proves it for `scan_directory_fast`: on a well-formed filesystem (sibling
names distinct at each level, as on a real filesystem) every node of a tree
it returns satisfies `is_dir ↔ has a children key`.  The proof follows the
source's phases: walking adds directory nodes with `'children': []` and file
nodes without the key; on a well-formed filesystem keys are distinct and
every non-root key's parent entry is a directory node, so linking never
creates a `children` key on a file node. -/

/-- Name of a filesystem entry list. -/
def fsListNames : PyFSList → List String
  | PyFSList.nil => []
  | PyFSList.cons e rest => e.name :: fsListNames rest

mutual

/-- Well-formedness of a filesystem subtree: sibling names are distinct at
every level (as on a real filesystem, where a directory cannot hold two
entries with the same name). -/
def fsWF : PyFS → Bool
  | PyFS.file _ _ => true
  | PyFS.dir _ entries => fsListWF entries

/-- Well-formedness of a sibling list. -/
def fsListWF : PyFSList → Bool
  | PyFSList.nil => true
  | PyFSList.cons e rest =>
    fsWF e && !((fsListNames rest).contains e.name) && fsListWF rest

end

/-- The shape every walk-phase node has: directory nodes carry
`'children': []`, file nodes have no `children` key. -/
def goodShape (n : PyNode) : Prop :=
  (n.info.is_dir = true ∧ n.children = some PyNodeList.nil)
  ∨ (n.info.is_dir = false ∧ n.children = none)

/-- `k` lies strictly inside the subtree of `r`. -/
def strictIn (r k : List String) : Prop := r <+: k ∧ k ≠ r

/-- Keys of a node-dict slice are pairwise distinct. -/
def keysDistinct (l : List (List String × PyNode)) : Prop :=
  l.Pairwise (fun kv kv' => kv.1 ≠ kv'.1)

/-- The subdirectory entries of a listing, with their contents. -/
def dirEntriesOf : PyFSList → List (String × PyFSList)
  | PyFSList.nil => []
  | PyFSList.cons (PyFS.file _ _) rest => dirEntriesOf rest
  | PyFSList.cons (PyFS.dir d sub) rest => (d, sub) :: dirEntriesOf rest

/-- The file entries of a listing, with their attributes. -/
def fileEntriesOf : PyFSList → List (String × FileAttr)
  | PyFSList.nil => []
  | PyFSList.cons (PyFS.dir _ _) rest => fileEntriesOf rest
  | PyFSList.cons (PyFS.file f attr) rest => (f, attr) :: fileEntriesOf rest

/-- The node entries `addSubdirNodes` appends, in order. -/
def subdirNodesSpec (pats : List String) (relP : List String)
    (entries : PyFSList) : List (List String × PyNode) :=
  (dirEntriesOf entries).map (fun ds =>
    (relP ++ [ds.1],
      mkDirNode (relP ++ [ds.1]) ds.1
        (_is_path_ignored (joinSlash (relP ++ [ds.1])) pats)))

/-- The node entries `addFileNodes` appends, in order. -/
def fileNodesSpec (pats : List String) (relP : List String)
    (entries : PyFSList) : List (List String × PyNode) :=
  (fileEntriesOf entries).map (fun fa =>
    (relP ++ [fa.1],
      mkFileNode (relP ++ [fa.1]) fa.1
        (_is_path_ignored (joinSlash (relP ++ [fa.1])) pats)))

/-- The eligible-file entries `addFileNodes` appends to `toProcess`. -/
def eligFilesSpec (pats : List String) (relP : List String)
    (entries : PyFSList) : List (List String × FileAttr) :=
  ((fileEntriesOf entries).filter (fun fa =>
      !(_is_path_ignored (joinSlash (relP ++ [fa.1])) pats))).map
    (fun fa => (relP ++ [fa.1], fa.2))

/-- Assigning an absent key appends the entry. -/
theorem pyDictSet_of_get_none {κ β : Type} [BEq κ] (l : List (κ × β)) (k : κ)
    (v : β) (h : pyDictGet l k = none) : pyDictSet l k v = l ++ [(k, v)] := by
  have hf : l.find? (fun kv => kv.1 == k) = none := by
    simp only [pyDictGet] at h
    cases hfind : l.find? (fun kv => kv.1 == k) with
    | none => rfl
    | some kv => rw [hfind] at h; exact Option.noConfusion h
  rw [pyDictSet, if_neg (by simp [hf])]

/-- A key is absent exactly when no entry carries it. -/
theorem pyDictGet_eq_none_iff {κ β : Type} [BEq κ] [LawfulBEq κ]
    (l : List (κ × β)) (k : κ) :
    pyDictGet l k = none ↔ ∀ kv ∈ l, kv.1 ≠ k := by
  constructor
  · intro h kv hkv hk
    simp only [pyDictGet] at h
    cases hfind : l.find? (fun kv => kv.1 == k) with
    | none =>
      have := List.find?_eq_none.1 hfind kv hkv
      simp [hk] at this
    | some kv' => rw [hfind] at h; exact Option.noConfusion h
  · intro h
    simp only [pyDictGet]
    rw [List.find?_eq_none.2]
    · rfl
    · intro kv hkv
      simp [h kv hkv]

/-- Lookup distributes over append when the key misses the front. -/
theorem pyDictGet_append_of_none {κ β : Type} [BEq κ]
    (l m : List (κ × β)) (k : κ) (h : pyDictGet l k = none) :
    pyDictGet (l ++ m) k = pyDictGet m k := by
  simp only [pyDictGet] at h ⊢
  rw [List.find?_append]
  cases hfind : l.find? (fun kv => kv.1 == k) with
  | none => simp
  | some kv => rw [hfind] at h; exact Option.noConfusion h

/-- A present witness makes lookup hit. -/
theorem pyDictGet_isSome_of_mem {κ β : Type} [BEq κ] [LawfulBEq κ]
    (l : List (κ × β)) (kv : κ × β) (h : kv ∈ l) :
    (pyDictGet l kv.1).isSome = true := by
  cases hget : pyDictGet l kv.1 with
  | some v => rfl
  | none => exact absurd rfl ((pyDictGet_eq_none_iff l kv.1).1 hget kv h)

/-- Two one-segment extensions of the same prefix of a list agree. -/
theorem prefix_ext_inj {r k : List String} {a b : String}
    (h1 : (r ++ [a]) <+: k) (h2 : (r ++ [b]) <+: k) : a = b := by
  obtain ⟨t1, ht1⟩ := h1
  obtain ⟨t2, ht2⟩ := h2
  rw [← ht2] at ht1
  simp only [List.append_assoc] at ht1
  have := List.append_cancel_left ht1
  simp at this
  exact this.1

/-- Distinct final segments give distinct one-segment extensions. -/
theorem key_ext_ne {relP : List String} {d d' : String} (h : d ≠ d') :
    relP ++ [d] ≠ relP ++ [d'] := by
  intro he
  exact h (by simpa using List.append_cancel_left he)

/-- Lookup misses a singleton with a different key. -/
theorem pyDictGet_singleton_ne {κ β : Type} [BEq κ] [LawfulBEq κ]
    (k k' : κ) (v : β) (h : k' ≠ k) : pyDictGet [(k', v)] k = none := by
  simp only [pyDictGet, List.find?_cons]
  have : ((k', v).1 == k) = false := by simpa using h
  rw [this]
  rfl

/-- A subdirectory's name occurs in the listing's names. -/
theorem dirEntriesOf_name_mem :
    ∀ entries ds, ds ∈ dirEntriesOf entries → ds.1 ∈ fsListNames entries
  | PyFSList.nil, ds, h => by simp [dirEntriesOf] at h
  | PyFSList.cons (PyFS.file f a) rest, ds, h =>
    List.mem_cons_of_mem _ (dirEntriesOf_name_mem rest ds h)
  | PyFSList.cons (PyFS.dir d sub) rest, ds, h => by
    rw [dirEntriesOf] at h
    rcases List.mem_cons.1 h with h | h
    · rw [h]; exact List.mem_cons_self _ _
    · exact List.mem_cons_of_mem _ (dirEntriesOf_name_mem rest ds h)

/-- A file's name occurs in the listing's names. -/
theorem fileEntriesOf_name_mem :
    ∀ entries fa, fa ∈ fileEntriesOf entries → fa.1 ∈ fsListNames entries
  | PyFSList.nil, fa, h => by simp [fileEntriesOf] at h
  | PyFSList.cons (PyFS.dir d sub) rest, fa, h =>
    List.mem_cons_of_mem _ (fileEntriesOf_name_mem rest fa h)
  | PyFSList.cons (PyFS.file f a) rest, fa, h => by
    rw [fileEntriesOf] at h
    rcases List.mem_cons.1 h with h | h
    · rw [h]; exact List.mem_cons_self _ _
    · exact List.mem_cons_of_mem _ (fileEntriesOf_name_mem rest fa h)

/-- Unpack well-formedness of a non-empty listing. -/
theorem fsListWF_cons {e : PyFS} {rest : PyFSList}
    (h : fsListWF (PyFSList.cons e rest) = true) :
    fsWF e = true ∧ e.name ∉ fsListNames rest ∧ fsListWF rest = true := by
  rw [fsListWF] at h
  simp only [Bool.and_eq_true, Bool.not_eq_true'] at h
  refine ⟨h.1.1, ?_, h.2⟩
  intro hmem
  have := h.1.2
  rw [List.contains_eq_any_beq] at this
  rw [List.any_eq_false] at this
  exact absurd (by simp : (e.name == e.name) = true) (this e.name hmem)

/-- Well-formedness makes the listing's names distinct. -/
theorem fsListWF_nodup : ∀ entries, fsListWF entries = true →
    (fsListNames entries).Nodup
  | PyFSList.nil, _ => by simp [fsListNames]
  | PyFSList.cons e rest, h => by
    obtain ⟨_, hnm, hrest⟩ := fsListWF_cons h
    rw [fsListNames]
    exact List.nodup_cons.2 ⟨hnm, fsListWF_nodup rest hrest⟩

/-- With fresh keys (as on a well-formed level), `addSubdirNodes` is a plain
append of its spec list. -/
theorem addSubdirNodes_eq (pats relP : List String) :
    ∀ (entries : PyFSList) (nodes : List (List String × PyNode)),
      (∀ d ∈ (dirEntriesOf entries).map (fun ds => ds.1),
        pyDictGet nodes (relP ++ [d]) = none) →
      ((dirEntriesOf entries).map (fun ds => ds.1)).Nodup →
      addSubdirNodes pats relP entries nodes
        = nodes ++ subdirNodesSpec pats relP entries
  | PyFSList.nil, nodes, _, _ => by
    simp [addSubdirNodes, subdirNodesSpec, dirEntriesOf]
  | PyFSList.cons (PyFS.file f a) rest, nodes, hfresh, hnodup => by
    rw [addSubdirNodes]
    rw [addSubdirNodes_eq pats relP rest nodes
      (by rw [dirEntriesOf] at hfresh; exact hfresh)
      (by rw [dirEntriesOf] at hnodup; exact hnodup)]
    simp [subdirNodesSpec, dirEntriesOf, PyFS.name]
  | PyFSList.cons (PyFS.dir d sub) rest, nodes, hfresh, hnodup => by
    rw [dirEntriesOf] at hfresh hnodup
    simp only [List.map_cons] at hfresh hnodup
    have hd_notin : d ∉ (dirEntriesOf rest).map (fun ds => ds.1) :=
      (List.nodup_cons.1 hnodup).1
    rw [addSubdirNodes]
    rw [pyDictSet_of_get_none nodes (relP ++ [d]) _
      (hfresh d (List.mem_cons_self _ _))]
    rw [addSubdirNodes_eq pats relP rest _ ?hfresh ?hnodup]
    case hfresh =>
      intro d' hd'
      rw [pyDictGet_append_of_none _ _ _
        (hfresh d' (List.mem_cons_of_mem _ hd'))]
      exact pyDictGet_singleton_ne _ _ _
        (key_ext_ne (fun he => hd_notin (he ▸ hd')))
    case hnodup => exact (List.nodup_cons.1 hnodup).2
    simp [subdirNodesSpec, dirEntriesOf]

/-- With fresh keys, `addFileNodes` is a plain append of its spec lists. -/
theorem addFileNodes_eq (pats relP : List String) :
    ∀ (entries : PyFSList) (nodes : List (List String × PyNode))
      (toP : List (List String × FileAttr)),
      (∀ f ∈ (fileEntriesOf entries).map (fun fa => fa.1),
        pyDictGet nodes (relP ++ [f]) = none) →
      ((fileEntriesOf entries).map (fun fa => fa.1)).Nodup →
      addFileNodes pats relP entries nodes toP
        = (nodes ++ fileNodesSpec pats relP entries,
           toP ++ eligFilesSpec pats relP entries)
  | PyFSList.nil, nodes, toP, _, _ => by
    simp [addFileNodes, fileNodesSpec, eligFilesSpec, fileEntriesOf]
  | PyFSList.cons (PyFS.dir d sub) rest, nodes, toP, hfresh, hnodup => by
    rw [addFileNodes]
    rw [addFileNodes_eq pats relP rest nodes toP
      (by rw [fileEntriesOf] at hfresh; exact hfresh)
      (by rw [fileEntriesOf] at hnodup; exact hnodup)]
    simp [fileNodesSpec, eligFilesSpec, fileEntriesOf, PyFS.name]
  | PyFSList.cons (PyFS.file f attr) rest, nodes, toP, hfresh, hnodup => by
    rw [fileEntriesOf] at hfresh hnodup
    simp only [List.map_cons] at hfresh hnodup
    have hf_notin : f ∉ (fileEntriesOf rest).map (fun fa => fa.1) :=
      (List.nodup_cons.1 hnodup).1
    rw [addFileNodes]
    rw [pyDictSet_of_get_none nodes (relP ++ [f]) _
      (hfresh f (List.mem_cons_self _ _))]
    rw [addFileNodes_eq pats relP rest _ _ ?hfresh ?hnodup]
    case hfresh =>
      intro f' hf'
      rw [pyDictGet_append_of_none _ _ _
        (hfresh f' (List.mem_cons_of_mem _ hf'))]
      exact pyDictGet_singleton_ne _ _ _
        (key_ext_ne (fun he => hf_notin (he ▸ hf')))
    case hnodup => exact (List.nodup_cons.1 hnodup).2
    by_cases hig : _is_path_ignored (joinSlash (relP ++ [f])) pats = true
    · simp [fileNodesSpec, eligFilesSpec, fileEntriesOf, hig]
    · simp [fileNodesSpec, eligFilesSpec, fileEntriesOf, hig]

/-- A one-segment extension lies strictly inside its base. -/
theorem strictIn_ext (relP : List String) (x : String) :
    strictIn relP (relP ++ [x]) := by
  refine ⟨List.prefix_append _ _, ?_⟩
  intro he
  have := congrArg List.length he
  simp at this

/-- Strict containment increases length. -/
theorem strictIn_length {r k : List String} (h : strictIn r k) :
    r.length < k.length := by
  obtain ⟨⟨t, ht⟩, hne⟩ := h
  cases t with
  | nil => simp at ht; exact absurd ht.symm hne
  | cons a t =>
    have := congrArg List.length ht
    simp at this
    omega

/-- Dropping the last segment of a key strictly inside `r ++ [x]` keeps the
prefix `r ++ [x]`. -/
theorem dropLast_of_strict_ext {r k : List String} {x : String}
    (h : strictIn (r ++ [x]) k) : (r ++ [x]) <+: k.dropLast := by
  obtain ⟨⟨t, ht⟩, hne⟩ := h
  cases t with
  | nil => simp at ht; exact absurd ht.symm hne
  | cons a t =>
    subst ht
    rcases List.eq_nil_or_concat (a :: t) with habs | ⟨t', b, ht'⟩
    · exact absurd habs (List.cons_ne_nil a t)
    · rw [ht', List.concat_eq_append, ← List.append_assoc, List.dropLast_concat]
      exact List.prefix_append _ _

/-- Strict containment passes to the parent (one level up) of a key lying
strictly inside a one-segment extension. -/
theorem strictIn_dropLast {r k : List String} {x : String}
    (h : strictIn (r ++ [x]) k) : strictIn r k.dropLast := by
  have hpre := dropLast_of_strict_ext h
  constructor
  · exact ((List.prefix_append r [x]).trans hpre)
  · intro he
    have hlen := hpre.length_le
    rw [he] at hlen
    simp at hlen

/-- The subdirectory names form a sublist of the listing's names. -/
theorem dirNames_sublist :
    ∀ entries, ((dirEntriesOf entries).map (fun ds => ds.1)).Sublist
      (fsListNames entries)
  | PyFSList.nil => by simp [dirEntriesOf, fsListNames]
  | PyFSList.cons (PyFS.file f a) rest => by
    rw [dirEntriesOf, fsListNames]
    exact (dirNames_sublist rest).cons _
  | PyFSList.cons (PyFS.dir d sub) rest => by
    rw [dirEntriesOf, fsListNames]
    simp only [List.map_cons]
    exact (dirNames_sublist rest).cons₂ _

/-- The file names form a sublist of the listing's names. -/
theorem fileNames_sublist :
    ∀ entries, ((fileEntriesOf entries).map (fun fa => fa.1)).Sublist
      (fsListNames entries)
  | PyFSList.nil => by simp [fileEntriesOf, fsListNames]
  | PyFSList.cons (PyFS.dir d sub) rest => by
    rw [fileEntriesOf, fsListNames]
    exact (fileNames_sublist rest).cons _
  | PyFSList.cons (PyFS.file f a) rest => by
    rw [fileEntriesOf, fsListNames]
    simp only [List.map_cons]
    exact (fileNames_sublist rest).cons₂ _

/-- On a level with distinct names, a file name never equals a
subdirectory name. -/
theorem file_dir_names_ne :
    ∀ entries, (fsListNames entries).Nodup →
      ∀ fa ∈ fileEntriesOf entries, ∀ ds ∈ dirEntriesOf entries, fa.1 ≠ ds.1
  | PyFSList.nil, _, fa, hfa, _, _ => by simp [fileEntriesOf] at hfa
  | PyFSList.cons (PyFS.file f a) rest, hnodup, fa, hfa, ds, hds => by
    rw [fsListNames] at hnodup
    rw [fileEntriesOf] at hfa
    rw [dirEntriesOf] at hds
    rcases List.mem_cons.1 hfa with h | h
    · subst h
      intro he
      have hd : ds.1 ∈ fsListNames rest := dirEntriesOf_name_mem rest ds hds
      have hnm : (PyFS.file f a).name ∉ fsListNames rest := (List.nodup_cons.1 hnodup).1
      rw [PyFS.name] at hnm
      have he' : f = ds.1 := he
      rw [← he'] at hd
      exact hnm hd
    · exact file_dir_names_ne rest (List.nodup_cons.1 hnodup).2 fa h ds hds
  | PyFSList.cons (PyFS.dir d sub) rest, hnodup, fa, hfa, ds, hds => by
    rw [fsListNames] at hnodup
    rw [fileEntriesOf] at hfa
    rw [dirEntriesOf] at hds
    rcases List.mem_cons.1 hds with h | h
    · subst h
      intro he
      have hf : fa.1 ∈ fsListNames rest := fileEntriesOf_name_mem rest fa hfa
      have hnm : (PyFS.dir d sub).name ∉ fsListNames rest := (List.nodup_cons.1 hnodup).1
      rw [PyFS.name] at hnm
      have he' : fa.1 = d := he
      rw [he'] at hf
      exact hnm hf
    · exact file_dir_names_ne rest (List.nodup_cons.1 hnodup).2 fa hfa ds h

/-- With pairwise-distinct keys, an entry is determined by its key. -/
theorem mem_unique_of_keysDistinct {l : List (List String × PyNode)}
    (hd : keysDistinct l) {kv kv' : List String × PyNode}
    (h : kv ∈ l) (h' : kv' ∈ l) (hk : kv.1 = kv'.1) : kv = kv' := by
  induction l with
  | nil => simp at h
  | cons x xs ih =>
    have hd' := List.pairwise_cons.1 hd
    rcases List.mem_cons.1 h with h1 | h1 <;> rcases List.mem_cons.1 h' with h2 | h2
    · rw [h1, h2]
    · subst h1; exact absurd hk (hd'.1 kv' h2)
    · subst h2; exact absurd hk.symm (hd'.1 kv h1)
    · exact ih hd'.2 h1 h2

/-- Directory nodes are well-shaped. -/
theorem goodShape_mkDirNode (key : List String) (name : String) (ign : Bool) :
    goodShape (mkDirNode key name ign) :=
  Or.inl ⟨rfl, rfl⟩

/-- File nodes are well-shaped. -/
theorem goodShape_mkFileNode (key : List String) (name : String) (ign : Bool) :
    goodShape (mkFileNode key name ign) :=
  Or.inr ⟨rfl, rfl⟩

/-- Strict containment in an extension gives strict containment in the base. -/
theorem strictIn_mono {r k : List String} {x : String}
    (h : strictIn (r ++ [x]) k) : strictIn r k := by
  refine ⟨(List.prefix_append r [x]).trans h.1, ?_⟩
  intro he
  have hlen := strictIn_length h
  rw [he] at hlen
  simp at hlen

/-- Shape of a member of the subdirectory spec list. -/
theorem subdirNodesSpec_mem {pats relP : List String} {entries : PyFSList}
    {kv : List String × PyNode} (h : kv ∈ subdirNodesSpec pats relP entries) :
    ∃ ds ∈ dirEntriesOf entries,
      kv = (relP ++ [ds.1],
        mkDirNode (relP ++ [ds.1]) ds.1
          (_is_path_ignored (joinSlash (relP ++ [ds.1])) pats)) := by
  obtain ⟨ds, hds, heq⟩ := List.mem_map.1 h
  exact ⟨ds, hds, heq.symm⟩

/-- Shape of a member of the file spec list. -/
theorem fileNodesSpec_mem {pats relP : List String} {entries : PyFSList}
    {kv : List String × PyNode} (h : kv ∈ fileNodesSpec pats relP entries) :
    ∃ fa ∈ fileEntriesOf entries,
      kv = (relP ++ [fa.1],
        mkFileNode (relP ++ [fa.1]) fa.1
          (_is_path_ignored (joinSlash (relP ++ [fa.1])) pats)) := by
  obtain ⟨fa, hfa, heq⟩ := List.mem_map.1 h
  exact ⟨fa, hfa, heq.symm⟩

/-- Conclusions of a walk of one directory: the slice it appends lies
strictly inside the subtree, is well-shaped, has distinct keys, and every
element's parent is either the directory itself or a directory node inside
the slice. -/
def WalkDeepInv (relP : List String) (deep : List (List String × PyNode)) : Prop :=
  (∀ kv ∈ deep, strictIn relP kv.1)
  ∧ (∀ kv ∈ deep, goodShape kv.2)
  ∧ keysDistinct deep
  ∧ (∀ kv ∈ deep, kv.1.dropLast = relP
      ∨ ∃ kv2 ∈ deep, kv2.1 = kv.1.dropLast ∧ kv2.2.info.is_dir = true)

/-- Conclusions of walking a sibling list: each appended entry lies strictly
inside one of the subdirectories, and parents are found in the pre-existing
nodes or in the slice. -/
def SubsDeepInv (relP : List String) (entries : PyFSList)
    (base deep : List (List String × PyNode)) : Prop :=
  (∀ kv ∈ deep, ∃ ds ∈ dirEntriesOf entries, strictIn (relP ++ [ds.1]) kv.1)
  ∧ (∀ kv ∈ deep, goodShape kv.2)
  ∧ keysDistinct deep
  ∧ (∀ kv ∈ deep,
      (∃ kv2 ∈ base, kv2.1 = kv.1.dropLast ∧ kv2.2.info.is_dir = true)
      ∨ ∃ kv2 ∈ deep, kv2.1 = kv.1.dropLast ∧ kv2.2.info.is_dir = true)

/-- The empty slice satisfies the directory-walk invariant. -/
theorem WalkDeepInv_nil (relP : List String) : WalkDeepInv relP [] := by
  refine ⟨?_, ?_, ?_, ?_⟩
  · intro kv h
    exact absurd h (List.not_mem_nil kv)
  · intro kv h
    exact absurd h (List.not_mem_nil kv)
  · exact List.Pairwise.nil
  · intro kv h
    exact absurd h (List.not_mem_nil kv)

/-- The empty slice satisfies the sibling-walk invariant. -/
theorem SubsDeepInv_nil (relP : List String) (entries : PyFSList)
    (base : List (List String × PyNode)) : SubsDeepInv relP entries base [] := by
  refine ⟨?_, ?_, ?_, ?_⟩
  · intro kv h
    exact absurd h (List.not_mem_nil kv)
  · intro kv h
    exact absurd h (List.not_mem_nil kv)
  · exact List.Pairwise.nil
  · intro kv h
    exact absurd h (List.not_mem_nil kv)

/-- Dropping the final segment of a one-segment extension returns the base. -/
theorem dropLast_ext (relP : List String) (x : String) :
    (relP ++ [x]).dropLast = relP := by
  simp

/-- The walk phase only appends node entries, and the appended slice
satisfies the structural invariants, on any well-formed filesystem. -/
theorem walk_nodes_invariant (pats : List String) (cAt : Option Nat) :
    ∀ fuel : Nat,
      (∀ relP name entries st st',
        walkDirF pats cAt fuel relP name entries st = some st' →
        fsListWF entries = true →
        (∀ kv ∈ st.nodes, ¬ strictIn relP kv.1) →
        ∃ rootPart deep,
          st'.nodes = st.nodes ++ rootPart ++ deep
          ∧ (rootPart = []
              ∨ (rootPart = [(relP, mkDirNode relP name false)]
                  ∧ pyDictGet st.nodes relP = none))
          ∧ WalkDeepInv relP deep)
      ∧ (∀ relP entries st st',
        walkSubsF pats cAt fuel relP entries st = some st' →
        fsListWF entries = true →
        (∀ kv ∈ st.nodes, ∀ ds ∈ dirEntriesOf entries,
          ¬ strictIn (relP ++ [ds.1]) kv.1) →
        (∀ ds ∈ dirEntriesOf entries,
          ∃ kv ∈ st.nodes, kv.1 = relP ++ [ds.1] ∧ kv.2.info.is_dir = true) →
        ∃ deep, st'.nodes = st.nodes ++ deep
          ∧ SubsDeepInv relP entries st.nodes deep) := by
  intro fuel
  induction fuel with
  | zero =>
    constructor
    · intro relP name entries st st' h
      exact absurd h (by rw [walkDirF]; simp)
    · intro relP entries st st' h
      exact absurd h (by rw [walkSubsF]; simp)
  | succ fuel ih =>
    constructor
    · -- one directory visit
      intro relP name entries st st' h hwf hfresh
      rw [walkDirF] at h
      by_cases hc : cancelSetAt cAt st.tick = true
      · rw [if_pos hc] at h
        exact Option.noConfusion h
      rw [if_neg hc] at h
      by_cases hskip : relP ≠ [] ∧ _is_path_ignored (joinSlash relP) pats = true
      · rw [if_pos hskip] at h
        have hst' : st' = { st with tick := st.tick + 1 } := (Option.some.inj h).symm
        refine ⟨[], [], ?_, Or.inl rfl, WalkDeepInv_nil relP⟩
        rw [hst']
        simp
      rw [if_neg hskip] at h
      -- name the level slices
      have hnames := fsListWF_nodup entries hwf
      have hdirnodup : ((dirEntriesOf entries).map (fun ds => ds.1)).Nodup :=
        hnames.sublist (dirNames_sublist entries)
      have hfilenodup : ((fileEntriesOf entries).map (fun fa => fa.1)).Nodup :=
        hnames.sublist (fileNames_sublist entries)
      have hfresh_ext : ∀ nm : String, pyDictGet st.nodes (relP ++ [nm]) = none := by
        intro nm
        rw [pyDictGet_eq_none_iff]
        intro kv hkv he
        refine hfresh kv hkv ?_
        rw [he]
        exact strictIn_ext relP nm
      have hnodes1 : (if (pyDictGet st.nodes relP).isSome then st.nodes
          else st.nodes ++ [(relP, mkDirNode relP name false)])
          = st.nodes ++ (if (pyDictGet st.nodes relP).isSome then []
              else [(relP, mkDirNode relP name false)]) := by
        by_cases hr : (pyDictGet st.nodes relP).isSome <;> simp [hr]
      rw [hnodes1] at h
      have hfresh1 : ∀ nm : String,
          pyDictGet (st.nodes ++ (if (pyDictGet st.nodes relP).isSome then []
            else [(relP, mkDirNode relP name false)])) (relP ++ [nm]) = none := by
        intro nm
        rw [pyDictGet_append_of_none _ _ _ (hfresh_ext nm)]
        by_cases hr : (pyDictGet st.nodes relP).isSome
        · simp [hr]; rfl
        · simp only [hr, Bool.false_eq_true, if_false]
          refine pyDictGet_singleton_ne _ _ _ ?_
          intro he
          have := congrArg List.length he
          simp at this
      rw [addSubdirNodes_eq pats relP entries _ (fun d _ => hfresh1 d) hdirnodup] at h
      rw [addFileNodes_eq pats relP entries _ _ ?ffresh hfilenodup] at h
      case ffresh =>
        intro f hf
        rw [pyDictGet_append_of_none _ _ _ (hfresh1 f)]
        rw [pyDictGet_eq_none_iff]
        intro kv hkv he
        obtain ⟨ds, hds, hkveq⟩ := subdirNodesSpec_mem hkv
        obtain ⟨fa, hfa, hfeq⟩ := List.mem_map.1 hf
        have hkey : relP ++ [ds.1] = relP ++ [f] := by rw [← he, hkveq]
        have : ds.1 = f := by simpa using List.append_cancel_left hkey
        exact file_dir_names_ne entries hnames fa hfa ds hds (by rw [hfeq, ← this])
      -- apply the sibling-walk induction hypothesis
      have hfreshS : ∀ kv ∈ ((st.nodes
            ++ (if (pyDictGet st.nodes relP).isSome then []
                else [(relP, mkDirNode relP name false)]))
            ++ subdirNodesSpec pats relP entries)
            ++ fileNodesSpec pats relP entries,
          ∀ ds ∈ dirEntriesOf entries, ¬ strictIn (relP ++ [ds.1]) kv.1 := by
        intro kv hkv ds hds hstrict
        rcases List.mem_append.1 hkv with hkv | hkv
        · rcases List.mem_append.1 hkv with hkv | hkv
          · rcases List.mem_append.1 hkv with hkv | hkv
            · exact hfresh kv hkv (strictIn_mono hstrict)
            · by_cases hr : (pyDictGet st.nodes relP).isSome
              · rw [if_pos hr] at hkv
                simp at hkv
              · rw [if_neg hr] at hkv
                simp only [List.mem_singleton] at hkv
                have hlen := strictIn_length hstrict
                rw [hkv] at hlen
                simp only [List.length_append, List.length_cons,
                  List.length_nil] at hlen
                omega
          · obtain ⟨ds', _, hkveq⟩ := subdirNodesSpec_mem hkv
            have hlen := strictIn_length hstrict
            rw [hkveq] at hlen
            simp only [List.length_append, List.length_cons,
              List.length_nil] at hlen
            omega
        · obtain ⟨fa, _, hkveq⟩ := fileNodesSpec_mem hkv
          have hlen := strictIn_length hstrict
          rw [hkveq] at hlen
          simp only [List.length_append, List.length_cons,
            List.length_nil] at hlen
          omega
      have hparS : ∀ ds ∈ dirEntriesOf entries,
          ∃ kv ∈ ((st.nodes
            ++ (if (pyDictGet st.nodes relP).isSome then []
                else [(relP, mkDirNode relP name false)]))
            ++ subdirNodesSpec pats relP entries)
            ++ fileNodesSpec pats relP entries,
          kv.1 = relP ++ [ds.1] ∧ kv.2.info.is_dir = true := by
        intro ds hds
        refine ⟨(relP ++ [ds.1],
          mkDirNode (relP ++ [ds.1]) ds.1
            (_is_path_ignored (joinSlash (relP ++ [ds.1])) pats)), ?_, rfl, rfl⟩
        refine List.mem_append.2 (Or.inl (List.mem_append.2 (Or.inr ?_)))
        exact List.mem_map.2 ⟨ds, hds, rfl⟩
      obtain ⟨deepS, hdeq, hStag, hSshape, hSdist, hSpar⟩ :=
        ih.2 relP entries _ st' h hwf hfreshS hparS
      -- assemble the conclusion
      refine ⟨(if (pyDictGet st.nodes relP).isSome then []
          else [(relP, mkDirNode relP name false)]),
        subdirNodesSpec pats relP entries ++ fileNodesSpec pats relP entries
          ++ deepS, ?_, ?_, ?_, ?_, ?_, ?_⟩
      · rw [hdeq]
        simp [List.append_assoc]
      · by_cases hr : (pyDictGet st.nodes relP).isSome
        · left
          rw [if_pos hr]
        · right
          refine ⟨by rw [if_neg hr], Option.not_isSome_iff_eq_none.1 hr⟩
      · -- strict containment
        intro kv hkv
        rcases List.mem_append.1 hkv with hkv | hkv
        · rcases List.mem_append.1 hkv with hkv | hkv
          · obtain ⟨ds, _, hkveq⟩ := subdirNodesSpec_mem hkv
            rw [hkveq]
            exact strictIn_ext relP ds.1
          · obtain ⟨fa, _, hkveq⟩ := fileNodesSpec_mem hkv
            rw [hkveq]
            exact strictIn_ext relP fa.1
        · obtain ⟨ds, _, hstrict⟩ := hStag kv hkv
          exact strictIn_mono hstrict
      · -- goodShape
        intro kv hkv
        rcases List.mem_append.1 hkv with hkv | hkv
        · rcases List.mem_append.1 hkv with hkv | hkv
          · obtain ⟨ds, _, hkveq⟩ := subdirNodesSpec_mem hkv
            rw [hkveq]
            exact goodShape_mkDirNode _ _ _
          · obtain ⟨fa, _, hkveq⟩ := fileNodesSpec_mem hkv
            rw [hkveq]
            exact goodShape_mkFileNode _ _ _
        · exact hSshape kv hkv
      · -- distinct keys
        rw [keysDistinct, List.pairwise_append]
        refine ⟨?_, hSdist, ?_⟩
        · rw [List.pairwise_append]
          refine ⟨?_, ?_, ?_⟩
          · rw [subdirNodesSpec, List.pairwise_map]
            exact (List.pairwise_map.1 hdirnodup).imp (fun hne => key_ext_ne hne)
          · rw [fileNodesSpec, List.pairwise_map]
            exact (List.pairwise_map.1 hfilenodup).imp (fun hne => key_ext_ne hne)
          · intro kv hkv kv' hkv'
            obtain ⟨ds, hds, hkveq⟩ := subdirNodesSpec_mem hkv
            obtain ⟨fa, hfa, hkveq'⟩ := fileNodesSpec_mem hkv'
            rw [hkveq, hkveq']
            exact key_ext_ne (Ne.symm (file_dir_names_ne entries hnames fa hfa ds hds))
        · intro kv hkv kv' hkv'
          have hlen1 : kv.1.length = relP.length + 1 := by
            rcases List.mem_append.1 hkv with hkv | hkv
            · obtain ⟨ds, _, hkveq⟩ := subdirNodesSpec_mem hkv
              rw [hkveq]
              simp
            · obtain ⟨fa, _, hkveq⟩ := fileNodesSpec_mem hkv
              rw [hkveq]
              simp
          obtain ⟨ds, _, hstr⟩ := hStag kv' hkv'
          have hlen2 := strictIn_length hstr
          simp only [List.length_append, List.length_cons, List.length_nil] at hlen2
          intro he
          rw [he] at hlen1
          omega
      · -- parent witnesses
        intro kv hkv
        rcases List.mem_append.1 hkv with hkv | hkv
        · left
          rcases List.mem_append.1 hkv with hkv | hkv
          · obtain ⟨ds, _, hkveq⟩ := subdirNodesSpec_mem hkv
            rw [hkveq]
            exact dropLast_ext relP ds.1
          · obtain ⟨fa, _, hkveq⟩ := fileNodesSpec_mem hkv
            rw [hkveq]
            exact dropLast_ext relP fa.1
        · have hdropstrict : strictIn relP kv.1.dropLast := by
            obtain ⟨dsk, _, hstrk⟩ := hStag kv hkv
            exact strictIn_dropLast hstrk
          rcases hSpar kv hkv with ⟨kv2, hkv2, hkey2, hdir2⟩ | ⟨kv2, hkv2, hkey2, hdir2⟩
          · rcases List.mem_append.1 hkv2 with hkv2 | hkv2
            · rcases List.mem_append.1 hkv2 with hkv2 | hkv2
              · rcases List.mem_append.1 hkv2 with hkv2 | hkv2
                · rw [← hkey2] at hdropstrict
                  exact absurd hdropstrict (hfresh kv2 hkv2)
                · by_cases hr : (pyDictGet st.nodes relP).isSome
                  · rw [if_pos hr] at hkv2
                    simp at hkv2
                  · rw [if_neg hr] at hkv2
                    simp only [List.mem_singleton] at hkv2
                    left
                    rw [← hkey2, hkv2]
              · right
                exact ⟨kv2,
                  List.mem_append_left _ (List.mem_append_left _ hkv2),
                  hkey2, hdir2⟩
            · obtain ⟨fa, _, hkveq⟩ := fileNodesSpec_mem hkv2
              rw [hkveq] at hdir2
              simp [mkFileNode, PyNode.info] at hdir2
          · right
            exact ⟨kv2, List.mem_append_right _ hkv2, hkey2, hdir2⟩

    · -- sibling walks
      intro relP entries st st' h hwf hfreshS hparS
      cases entries with
      | nil =>
        have heq0 : walkSubsF pats cAt (fuel + 1) relP PyFSList.nil st
            = some st := rfl
        rw [heq0] at h
        have hst' : st' = st := (Option.some.inj h).symm
        refine ⟨[], ?_, SubsDeepInv_nil relP PyFSList.nil st.nodes⟩
        rw [hst']
        simp
      | cons e rest =>
        obtain ⟨hwfe, hename, hwfrest⟩ := fsListWF_cons hwf
        cases e with
        | file fname attr =>
          have heq0 : walkSubsF pats cAt (fuel + 1) relP
              (PyFSList.cons (PyFS.file fname attr) rest) st
              = walkSubsF pats cAt fuel relP rest st := rfl
          rw [heq0] at h
          obtain ⟨deep, hdeq, htag, hshape, hdist, hpar⟩ :=
            ih.2 relP rest st st' h hwfrest hfreshS hparS
          exact ⟨deep, hdeq, htag, hshape, hdist, hpar⟩
        | dir d sub =>
          have heq0 : walkSubsF pats cAt (fuel + 1) relP
              (PyFSList.cons (PyFS.dir d sub) rest) st
              = if _is_path_ignored (joinSlash (relP ++ [d])) pats then
                  walkSubsF pats cAt fuel relP rest st
                else
                  (walkDirF pats cAt fuel (relP ++ [d]) d sub st).bind
                    (fun st2 => walkSubsF pats cAt fuel relP rest st2) := rfl
          rw [heq0] at h
          have hdmem : ((d, sub) : String × PyFSList)
              ∈ dirEntriesOf (PyFSList.cons (PyFS.dir d sub) rest) := by
            rw [dirEntriesOf]
            exact List.mem_cons_self _ _
          by_cases hig : _is_path_ignored (joinSlash (relP ++ [d])) pats = true
          · rw [if_pos hig] at h
            obtain ⟨deep, hdeq, htag, hshape, hdist, hpar⟩ :=
              ih.2 relP rest st st' h hwfrest
                (fun kv hkv ds hds => hfreshS kv hkv ds
                  (by rw [dirEntriesOf]; exact List.mem_cons_of_mem _ hds))
                (fun ds hds => hparS ds
                  (by rw [dirEntriesOf]; exact List.mem_cons_of_mem _ hds))
            refine ⟨deep, hdeq, ?_, hshape, hdist, hpar⟩
            intro kv hkv
            obtain ⟨ds, hds, hstr⟩ := htag kv hkv
            exact ⟨ds, by rw [dirEntriesOf]; exact List.mem_cons_of_mem _ hds, hstr⟩
          · rw [if_neg hig] at h
            cases hw : walkDirF pats cAt fuel (relP ++ [d]) d sub st with
            | none =>
              rw [hw] at h
              simp at h
            | some stMid =>
              rw [hw] at h
              replace h : walkSubsF pats cAt fuel relP rest stMid = some st' := h
              have hwfsub : fsListWF sub = true := hwfe
              have hfreshD : ∀ kv ∈ st.nodes, ¬ strictIn (relP ++ [d]) kv.1 :=
                fun kv hkv => hfreshS kv hkv (d, sub) hdmem
              obtain ⟨rootPart, deepD, hDeq, hroot, hDstrict, hDshape, hDdist, hDpar⟩ :=
                ih.1 (relP ++ [d]) d sub st stMid hw hwfsub hfreshD
              have hrootnil : rootPart = [] := by
                rcases hroot with h0 | ⟨_, hnone⟩
                · exact h0
                · obtain ⟨kv0, hkv0, hkey0, _⟩ := hparS (d, sub) hdmem
                  have hkey0' : kv0.1 = relP ++ [d] := hkey0
                  have hsome := pyDictGet_isSome_of_mem st.nodes kv0 hkv0
                  rw [hkey0'] at hsome
                  rw [hnone] at hsome
                  simp at hsome
              rw [hrootnil] at hDeq
              simp only [List.append_nil] at hDeq
              have hd_notin : d ∉ fsListNames rest := hename
              have hfresh2 : ∀ kv ∈ stMid.nodes, ∀ ds ∈ dirEntriesOf rest,
                  ¬ strictIn (relP ++ [ds.1]) kv.1 := by
                intro kv hkv ds hds hstr
                rw [hDeq] at hkv
                rcases List.mem_append.1 hkv with hkv | hkv
                · exact hfreshS kv hkv ds
                    (by rw [dirEntriesOf]; exact List.mem_cons_of_mem _ hds) hstr
                · have hd_eq : d = ds.1 :=
                    prefix_ext_inj (hDstrict kv hkv).1 hstr.1
                  have hmemn := dirEntriesOf_name_mem rest ds hds
                  rw [← hd_eq] at hmemn
                  exact hd_notin hmemn
              have hpar2 : ∀ ds ∈ dirEntriesOf rest,
                  ∃ kv ∈ stMid.nodes,
                    kv.1 = relP ++ [ds.1] ∧ kv.2.info.is_dir = true := by
                intro ds hds
                obtain ⟨kv0, hkv0, hkey0, hdir0⟩ := hparS ds
                  (by rw [dirEntriesOf]; exact List.mem_cons_of_mem _ hds)
                refine ⟨kv0, ?_, hkey0, hdir0⟩
                rw [hDeq]
                exact List.mem_append_left _ hkv0
              obtain ⟨deepS, hSeq, hStag, hSshape, hSdist, hSpar⟩ :=
                ih.2 relP rest stMid st' h hwfrest hfresh2 hpar2
              refine ⟨deepD ++ deepS, ?_, ?_, ?_, ?_, ?_⟩
              · rw [hSeq, hDeq, List.append_assoc]
              · intro kv hkv
                rcases List.mem_append.1 hkv with hkv | hkv
                · exact ⟨(d, sub), hdmem, hDstrict kv hkv⟩
                · obtain ⟨ds, hds, hstr⟩ := hStag kv hkv
                  exact ⟨ds,
                    by rw [dirEntriesOf]; exact List.mem_cons_of_mem _ hds, hstr⟩
              · intro kv hkv
                rcases List.mem_append.1 hkv with hkv | hkv
                · exact hDshape kv hkv
                · exact hSshape kv hkv
              · rw [keysDistinct, List.pairwise_append]
                refine ⟨hDdist, hSdist, ?_⟩
                intro kv hkv kv' hkv' he
                obtain ⟨ds, hds, hstr⟩ := hStag kv' hkv'
                have hpre := hstr.1
                rw [← he] at hpre
                have hd_eq : d = ds.1 :=
                  prefix_ext_inj (hDstrict kv hkv).1 hpre
                have hmemn := dirEntriesOf_name_mem rest ds hds
                rw [← hd_eq] at hmemn
                exact hd_notin hmemn
              · intro kv hkv
                rcases List.mem_append.1 hkv with hkv | hkv
                · rcases hDpar kv hkv with hkey | ⟨kv2, hkv2, hkey2, hdir2⟩
                  · obtain ⟨kv0, hkv0, hkey0, hdir0⟩ := hparS (d, sub) hdmem
                    have hkey0' : kv0.1 = relP ++ [d] := hkey0
                    left
                    exact ⟨kv0, hkv0, by rw [hkey0', hkey], hdir0⟩
                  · right
                    exact ⟨kv2, List.mem_append_left _ hkv2, hkey2, hdir2⟩
                · rcases hSpar kv hkv with ⟨kv2, hkv2, hkey2, hdir2⟩ |
                    ⟨kv2, hkv2, hkey2, hdir2⟩
                  · rw [hDeq] at hkv2
                    rcases List.mem_append.1 hkv2 with hkv2 | hkv2
                    · left
                      exact ⟨kv2, hkv2, hkey2, hdir2⟩
                    · right
                      exact ⟨kv2, List.mem_append_left _ hkv2, hkey2, hdir2⟩
                  · right
                    exact ⟨kv2, List.mem_append_right _ hkv2, hkey2, hdir2⟩

/-! #### The linking and sorting phases preserve the shape invariants -/

/-- A sibling list as a `List` of nodes. -/
def nlToList : PyNodeList → List PyNode
  | PyNodeList.nil => []
  | PyNodeList.cons n rest => n :: nlToList rest

/-- Round-trip between the two sibling-list representations. -/
theorem nlToList_nlOfList : ∀ ns : List PyNode, nlToList (nlOfList ns) = ns
  | [] => rfl
  | n :: rest => by
    rw [nlOfList, nlToList, nlToList_nlOfList rest]

/-- Appending to the empty sibling list yields exactly the appended nodes. -/
theorem nlToList_nodeListAppend_nil (ns : List PyNode) :
    nlToList (nodeListAppend PyNodeList.nil ns) = ns := by
  rw [nodeListAppend]
  exact nlToList_nlOfList ns

/-- Insertion adds no node beyond the inserted one. -/
theorem mem_nlToList_nodeInsertLe :
    ∀ (l : PyNodeList) (x n : PyNode),
      n ∈ nlToList (nodeInsertLe x l) → n = x ∨ n ∈ nlToList l
  | PyNodeList.nil, x, n, h => by
    rw [nodeInsertLe, nlToList, nlToList] at h
    rcases List.mem_cons.1 h with h | h
    · exact Or.inl h
    · exact Or.inr h
  | PyNodeList.cons y ys, x, n, h => by
    rw [nodeInsertLe] at h
    by_cases hk : nodeKeyLe x y = true
    · rw [if_pos hk, nlToList] at h
      rcases List.mem_cons.1 h with h | h
      · exact Or.inl h
      · exact Or.inr h
    · rw [if_neg hk, nlToList] at h
      rcases List.mem_cons.1 h with h | h
      · right
        rw [nlToList]
        exact List.mem_cons.2 (Or.inl h)
      · rcases mem_nlToList_nodeInsertLe ys x n h with h | h
        · exact Or.inl h
        · right
          rw [nlToList]
          exact List.mem_cons.2 (Or.inr h)

/-- Sorting adds no node. -/
theorem mem_nlToList_nodeSortList :
    ∀ (l : PyNodeList) (n : PyNode),
      n ∈ nlToList (nodeSortList l) → n ∈ nlToList l
  | PyNodeList.nil, n, h => h
  | PyNodeList.cons x xs, n, h => by
    rw [nodeSortList] at h
    rcases mem_nlToList_nodeInsertLe _ x n h with h | h
    · rw [h, nlToList]
      exact List.mem_cons_self _ _
    · rw [nlToList]
      exact List.mem_cons.2 (Or.inr (mem_nlToList_nodeSortList xs n h))

/-- A traversal member of a sibling list lies in some member's traversal. -/
theorem mem_allNodesList :
    ∀ (l : PyNodeList) (m : PyNode),
      m ∈ PyNodeList.allNodes l ↔ ∃ n ∈ nlToList l, m ∈ PyNode.allNodes n
  | PyNodeList.nil, m => by
    rw [PyNodeList.allNodes, nlToList]
    simp
  | PyNodeList.cons n rest, m => by
    rw [PyNodeList.allNodes, nlToList, List.mem_append]
    constructor
    · intro h
      rcases h with h | h
      · exact ⟨n, List.mem_cons_self _ _, h⟩
      · obtain ⟨n', hn', hm⟩ := (mem_allNodesList rest m).1 h
        exact ⟨n', List.mem_cons_of_mem _ hn', hm⟩
    · rintro ⟨n', hn', hm⟩
      rcases List.mem_cons.1 hn' with he | hn'
      · left
        exact he ▸ hm
      · right
        exact (mem_allNodesList rest m).2 ⟨n', hn', hm⟩

/-- A traversal member of a sorted sibling list lies in the traversal of a
member of the unsorted list. -/
theorem mem_allNodes_sort (l : PyNodeList) (m : PyNode)
    (h : m ∈ PyNodeList.allNodes (nodeSortList l)) :
    ∃ n ∈ nlToList l, m ∈ PyNode.allNodes n := by
  obtain ⟨n, hn, hm⟩ := (mem_allNodesList _ m).1 h
  exact ⟨n, mem_nlToList_nodeSortList l n hn, hm⟩

/-- A well-shaped node's traversal is the node alone. -/
theorem allNodes_of_goodShape {n : PyNode} (h : goodShape n) :
    PyNode.allNodes n = [n] := by
  cases n with
  | mk i c =>
    rcases h with ⟨_, hc⟩ | ⟨_, hc⟩
    · have hc' : c = some PyNodeList.nil := hc
      rw [hc']
      rfl
    · have hc' : c = none := hc
      rw [hc']
      rfl

/-- A well-shaped node satisfies the claimed equivalence. -/
theorem goodShape_iff {n : PyNode} (h : goodShape n) :
    (n.info.is_dir = true ↔ n.children.isSome = true) := by
  rcases h with ⟨hd, hc⟩ | ⟨hd, hc⟩
  · rw [hd, hc]
    simp
  · rw [hd, hc]
    simp

/-- Sorting the children of a well-shaped walk node changes nothing (its
children list is empty or absent). -/
theorem sortNodeChildren_of_goodShape {n : PyNode} (h : goodShape n) :
    sortNodeChildren n = n := by
  cases n with
  | mk i c =>
    rcases h with ⟨hd, hc⟩ | ⟨_, hc⟩
    · have hc' : c = some PyNodeList.nil := hc
      have hd' : i.is_dir = true := hd
      rw [hc']
      show (if i.is_dir then
          PyNode.mk i (some (nodeSortList PyNodeList.nil))
        else PyNode.mk i (some PyNodeList.nil)) = PyNode.mk i (some PyNodeList.nil)
      rw [hd']
      rfl
    · have hc' : c = none := hc
      rw [hc']
      rfl

/-- Linked children are entries of the dict. -/
theorem childEntries_subset (nodes : List (List String × PyNode))
    (key : List String) {kv : List String × PyNode}
    (h : kv ∈ childEntries nodes key) : kv ∈ nodes :=
  List.mem_of_mem_filter h

/-- Unfolding `resolveNodeF` when no children link to the key. -/
theorem resolveNodeF_eq_nil (N : List (List String × PyNode)) (fuelR : Nat)
    (key : List String) (n : PyNode) (h : childEntries N key = []) :
    resolveNodeF N (fuelR + 1) key n = sortNodeChildren n := by
  simp only [resolveNodeF, h]

/-- Unfolding `resolveNodeF` when children link to the key. -/
theorem resolveNodeF_eq_cons (N : List (List String × PyNode)) (fuelR : Nat)
    (key : List String) (n : PyNode) (k : List String × PyNode)
    (ks : List (List String × PyNode)) (h : childEntries N key = k :: ks) :
    resolveNodeF N (fuelR + 1) key n
      = sortNodeChildren (PyNode.mk n.info (some (nodeListAppend
          (n.children.getD PyNodeList.nil)
          ((k :: ks).map (fun kv => resolveNodeF N fuelR kv.1 kv.2))))) := by
  simp only [resolveNodeF, h]

/-- On a dict whose entries are well-shaped and whose file entries have no
linked children, resolution yields trees in which every node is a directory
exactly when it carries a `children` key. -/
theorem resolveNodeF_good (N : List (List String × PyNode))
    (hshape : ∀ kv ∈ N, goodShape kv.2)
    (hnokids : ∀ kv ∈ N, kv.2.info.is_dir = false → childEntries N kv.1 = []) :
    ∀ (fuelR : Nat) (key : List String) (n : PyNode),
      goodShape n → (n.info.is_dir = false → childEntries N key = []) →
      ∀ m ∈ PyNode.allNodes (resolveNodeF N fuelR key n),
        (m.info.is_dir = true ↔ m.children.isSome = true) := by
  intro fuelR
  induction fuelR with
  | zero =>
    intro key n hgood _ m hm
    rw [resolveNodeF] at hm
    rw [allNodes_of_goodShape hgood] at hm
    simp only [List.mem_singleton] at hm
    rw [hm]
    exact goodShape_iff hgood
  | succ fuelR ih =>
    intro key n hgood hfile m hm
    cases hkids : childEntries N key with
    | nil =>
      rw [resolveNodeF_eq_nil N fuelR key n hkids] at hm
      rw [sortNodeChildren_of_goodShape hgood] at hm
      rw [allNodes_of_goodShape hgood] at hm
      simp only [List.mem_singleton] at hm
      rw [hm]
      exact goodShape_iff hgood
    | cons k ks =>
      rw [resolveNodeF_eq_cons N fuelR key n k ks hkids] at hm
      have hdir : n.info.is_dir = true := by
        cases hb : n.info.is_dir with
        | true => rfl
        | false =>
          rw [hfile hb] at hkids
          exact List.noConfusion hkids
      have hc : n.children = some PyNodeList.nil := by
        rcases hgood with ⟨_, hc⟩ | ⟨hd, _⟩
        · exact hc
        · rw [hdir] at hd
          exact Bool.noConfusion hd
      rw [hc] at hm
      simp only [Option.getD_some] at hm
      have hsort : sortNodeChildren (PyNode.mk n.info (some (nodeListAppend
          PyNodeList.nil
          ((k :: ks).map (fun kv => resolveNodeF N fuelR kv.1 kv.2)))))
          = PyNode.mk n.info (some (nodeSortList (nodeListAppend
              PyNodeList.nil
              ((k :: ks).map (fun kv => resolveNodeF N fuelR kv.1 kv.2))))) := by
        show (if n.info.is_dir then _ else _) = _
        rw [hdir]
        rfl
      rw [hsort] at hm
      have hall : PyNode.allNodes (PyNode.mk n.info (some (nodeSortList
          (nodeListAppend PyNodeList.nil
            ((k :: ks).map (fun kv => resolveNodeF N fuelR kv.1 kv.2))))))
          = PyNode.mk n.info (some (nodeSortList (nodeListAppend PyNodeList.nil
              ((k :: ks).map (fun kv => resolveNodeF N fuelR kv.1 kv.2)))))
            :: PyNodeList.allNodes (nodeSortList (nodeListAppend PyNodeList.nil
              ((k :: ks).map (fun kv => resolveNodeF N fuelR kv.1 kv.2)))) := rfl
      rw [hall] at hm
      rcases List.mem_cons.1 hm with hm | hm
      · rw [hm]
        constructor
        · intro _
          rfl
        · intro _
          exact hdir
      · obtain ⟨c, hcmem, hmc⟩ := mem_allNodes_sort _ m hm
        rw [nlToList_nodeListAppend_nil] at hcmem
        obtain ⟨kv, hkv, hkveq⟩ := List.mem_map.1 hcmem
        have hkvN : kv ∈ N := childEntries_subset N key (hkids ▸ hkv)
        rw [← hkveq] at hmc
        exact ih kv.1 kv.2 (hshape kv hkvN) (hnokids kv hkvN) m hmc

/-- The per-entry relation a harvest step preserves: the key, the directory
flag and the `children` entry survive `update(details)`. -/
def detPres (kv kv' : List String × PyNode) : Prop :=
  kv'.1 = kv.1 ∧ kv'.2.info.is_dir = kv.2.info.is_dir
    ∧ kv'.2.children = kv.2.children

/-- `detPres` is reflexive. -/
theorem detPres_refl (kv : List String × PyNode) : detPres kv kv :=
  ⟨rfl, rfl, rfl⟩

/-- `detPres` is transitive. -/
theorem detPres_trans {a b c : List String × PyNode}
    (h1 : detPres a b) (h2 : detPres b c) : detPres a c :=
  ⟨h2.1.trans h1.1, h2.2.1.trans h1.2.1, h2.2.2.trans h1.2.2⟩

/-- Entry-wise `detPres` composes along intermediate dicts. -/
theorem forall2_detPres_trans :
    ∀ {l m n : List (List String × PyNode)},
      List.Forall₂ detPres l m → List.Forall₂ detPres m n →
      List.Forall₂ detPres l n := by
  intro l m n h1
  induction h1 generalizing n with
  | nil =>
    intro h2
    cases h2
    exact List.Forall₂.nil
  | cons hab h1 ih =>
    intro h2
    cases h2 with
    | cons hbc h2 => exact List.Forall₂.cons (detPres_trans hab hbc) (ih h2)

/-- An entry-wise related dict hands back a related witness for each entry. -/
theorem forall2_mem_right {α β : Type} {R : α → β → Prop} :
    ∀ {l : List α} {m : List β}, List.Forall₂ R l m →
      ∀ b ∈ m, ∃ a ∈ l, R a b := by
  intro l m h
  induction h with
  | nil =>
    intro b hb
    exact absurd hb (List.not_mem_nil b)
  | cons hab htail ih =>
    intro b hb
    rcases List.mem_cons.1 hb with he | hb
    · exact ⟨_, List.mem_cons_self _ _, he.symm ▸ hab⟩
    · obtain ⟨a', ha', hr⟩ := ih b hb
      exact ⟨a', List.mem_cons_of_mem _ ha', hr⟩

/-- And conversely. -/
theorem forall2_mem_left {α β : Type} {R : α → β → Prop} :
    ∀ {l : List α} {m : List β}, List.Forall₂ R l m →
      ∀ a ∈ l, ∃ b ∈ m, R a b := by
  intro l m h
  induction h with
  | nil =>
    intro a ha
    exact absurd ha (List.not_mem_nil a)
  | cons hab htail ih =>
    intro a ha
    rcases List.mem_cons.1 ha with he | ha
    · exact ⟨_, List.mem_cons_self _ _, he ▸ hab⟩
    · obtain ⟨b', hb', hr⟩ := ih a ha
      exact ⟨b', List.mem_cons_of_mem _ hb', hr⟩

/-- `detPres`-related dicts carry the same keys in the same order. -/
theorem forall2_keys :
    ∀ {l m : List (List String × PyNode)}, List.Forall₂ detPres l m →
      m.map Prod.fst = l.map Prod.fst := by
  intro l m h
  induction h with
  | nil => rfl
  | cons hab htail ih =>
    simp only [List.map_cons]
    rw [ih, hab.1]

/-- `update(details)` preserves key, flag and children of every entry. -/
theorem nodesUpdate_forall2 (nodes : List (List String × PyNode))
    (key : List String) (d : ScanDetails) :
    List.Forall₂ detPres nodes (nodesUpdate nodes key d) := by
  rw [nodesUpdate]
  induction nodes with
  | nil => exact List.Forall₂.nil
  | cons kv rest ih =>
    rw [List.map_cons]
    refine List.Forall₂.cons ?_ ih
    by_cases hk : (kv.1 == key) = true
    · rw [if_pos hk]
      exact ⟨rfl, rfl, rfl⟩
    · rw [if_neg hk]
      exact detPres_refl kv

/-- The harvest phase preserves key, directory flag and children of every
entry, in order. -/
theorem harvestF_forall2 (cAt : Option Nat) :
    ∀ (toP : List (List String × FileAttr))
      (nodes : List (List String × PyNode)) (tick : Nat)
      (nodes' : List (List String × PyNode)) (tick' : Nat),
      harvestF cAt toP nodes tick = some (nodes', tick') →
      List.Forall₂ detPres nodes nodes'
  | [], nodes, tick, nodes', tick', h => by
    rw [harvestF] at h
    have he : nodes = nodes' := congrArg Prod.fst (Option.some.inj h)
    rw [← he]
    exact List.forall₂_same.2 (fun x _ => detPres_refl x)
  | (key, attr) :: rest, nodes, tick, nodes', tick', h => by
    rw [harvestF] at h
    by_cases hc : cancelSetAt cAt tick = true
    · rw [if_pos hc] at h
      exact Option.noConfusion h
    · rw [if_neg hc] at h
      exact forall2_detPres_trans (nodesUpdate_forall2 nodes key _)
        (harvestF_forall2 cAt rest _ _ _ _ h)

/-- The flat-dict invariant carried from the walk through the harvest:
distinct keys, well-shaped nodes, and a directory-node parent for every
non-root key. -/
def NodesInv (N : List (List String × PyNode)) : Prop :=
  keysDistinct N
  ∧ (∀ kv ∈ N, goodShape kv.2)
  ∧ (∀ kv ∈ N, kv.1 ≠ [] →
      ∃ kv2 ∈ N, kv2.1 = kv.1.dropLast ∧ kv2.2.info.is_dir = true)

/-- Shape transfers along `detPres`. -/
theorem goodShape_of_detPres {kv kv' : List String × PyNode}
    (hp : detPres kv kv') (h : goodShape kv.2) : goodShape kv'.2 := by
  rcases h with ⟨hd, hc⟩ | ⟨hd, hc⟩
  · exact Or.inl ⟨hp.2.1.trans hd, hp.2.2.trans hc⟩
  · exact Or.inr ⟨hp.2.1.trans hd, hp.2.2.trans hc⟩

/-- Key distinctness transfers along entry-wise `detPres`. -/
theorem keysDistinct_of_forall2 {l m : List (List String × PyNode)}
    (h2 : List.Forall₂ detPres l m) (hd : keysDistinct l) : keysDistinct m := by
  have hkeys : m.map Prod.fst = l.map Prod.fst := forall2_keys h2
  have hd' : (l.map Prod.fst).Pairwise (fun a b => a ≠ b) := by
    rw [List.pairwise_map]
    exact hd
  have hm : (m.map Prod.fst).Pairwise (fun a b => a ≠ b) := by
    rw [hkeys]
    exact hd'
  rw [List.pairwise_map] at hm
  exact hm

/-- The flat-dict invariant transfers along entry-wise `detPres`. -/
theorem nodesInv_of_forall2 {l m : List (List String × PyNode)}
    (h2 : List.Forall₂ detPres l m) (h : NodesInv l) : NodesInv m := by
  obtain ⟨hdist, hshape, hpar⟩ := h
  refine ⟨keysDistinct_of_forall2 h2 hdist, ?_, ?_⟩
  · intro kv' hkv'
    obtain ⟨kv, hkv, hp⟩ := forall2_mem_right h2 kv' hkv'
    exact goodShape_of_detPres hp (hshape kv hkv)
  · intro kv' hkv' hne
    obtain ⟨kv, hkv, hp⟩ := forall2_mem_right h2 kv' hkv'
    have hne' : kv.1 ≠ [] := by
      rw [← hp.1]
      exact hne
    obtain ⟨kv2, hkv2, hkey2, hdir2⟩ := hpar kv hkv hne'
    obtain ⟨kv2', hkv2', hp2⟩ := forall2_mem_left h2 kv2 hkv2
    refine ⟨kv2', hkv2', ?_, ?_⟩
    · rw [hp2.1, hkey2, hp.1]
    · rw [hp2.2.1]
      exact hdir2

/-- Under the flat-dict invariant no children link to a file entry's key. -/
theorem fileNoKids_of_inv {N : List (List String × PyNode)} (hinv : NodesInv N) :
    ∀ kv ∈ N, kv.2.info.is_dir = false → childEntries N kv.1 = [] := by
  intro kv hkv hfile
  rw [childEntries, List.filter_eq_nil]
  intro kv' hkv' hpred
  rw [Bool.and_eq_true] at hpred
  have h1 : kv'.1 ≠ [] := by
    intro he
    rw [he] at hpred
    simp at hpred
  have h2 : kv'.1.dropLast = kv.1 := beq_iff_eq.1 hpred.2
  obtain ⟨kv2, hkv2, hkey2, hdir2⟩ := hinv.2.2 kv' hkv' h1
  have heq : kv2 = kv :=
    mem_unique_of_keysDistinct hinv.1 hkv2 hkv (by rw [hkey2, h2])
  rw [heq, hfile] at hdir2
  exact Bool.noConfusion hdir2

/-- A successful dict lookup exhibits a dict entry. -/
theorem pyDictGet_mem {κ β : Type} [BEq κ] [LawfulBEq κ]
    (l : List (κ × β)) (k : κ) {v : β} (h : pyDictGet l k = some v) :
    (k, v) ∈ l := by
  simp only [pyDictGet] at h
  cases hfind : l.find? (fun kv => kv.1 == k) with
  | none =>
    rw [hfind] at h
    exact Option.noConfusion h
  | some kv =>
    rw [hfind] at h
    simp only [Option.map_some'] at h
    have hmem := List.mem_of_find?_eq_some hfind
    have hkey := List.find?_some hfind
    simp only [beq_iff_eq] at hkey
    have hv : kv.2 = v := Option.some.inj h
    have hkv : kv = (k, v) := by
      cases kv with
      | mk a b =>
        simp only at hkey hv
        rw [hkey, hv]
    rw [← hkv]
    exact hmem

/-- C9 (amended): every tree `scan_directory_fast` returns over a well-formed
filesystem (sibling names distinct at each level) satisfies the claimed
equivalence: a node's `is_dir` is `True` exactly when the node carries a
`children` key.  (The original claim over `scan_directory` is refuted by
`C9_counterexample`: that scanner gives file nodes a `children` list.) -/
theorem C9_fast_children_key_iff_is_dir (name : String) (entries : PyFSList)
    (pats : List String) (cancelAt : Option Nat) (tree : PyNode)
    (hwf : fsListWF entries = true)
    (h : scan_directory_fast (PyFS.dir name entries) pats cancelAt = some tree) :
    ∀ n ∈ PyNode.allNodes tree,
      (n.info.is_dir = true ↔ n.children.isSome = true) := by
  cases hw : walkDirF pats cancelAt (fsWeight (PyFS.dir name entries))
      [] name entries { nodes := [], toProcess := [], tick := 0 } with
  | none =>
    simp only [scan_directory_fast, hw] at h
    exact Option.noConfusion h
  | some stW =>
    simp only [scan_directory_fast, hw] at h
    cases hh : harvestF cancelAt stW.toProcess stW.nodes stW.tick with
    | none =>
      simp only [hh] at h
      exact Option.noConfusion h
    | some res =>
      simp only [hh] at h
      obtain ⟨N, tick⟩ := res
      cases hr : pyDictGet N ([] : List String) with
      | none =>
        simp only [hr] at h
        exact Option.noConfusion h
      | some root =>
        simp only [hr] at h
        have htree : tree = resolveNodeF N (resolveFuel N) [] root :=
          (Option.some.inj h).symm
        obtain ⟨rootPart, deep, hWeq, hroot, hDstrict, hDshape, hDdist, hDpar⟩ :=
          (walk_nodes_invariant pats cancelAt
              (fsWeight (PyFS.dir name entries))).1
            [] name entries _ stW hw hwf
            (fun kv hkv => absurd hkv (List.not_mem_nil kv))
        simp only [List.nil_append] at hWeq
        have hF2 : List.Forall₂ detPres stW.nodes N :=
          harvestF_forall2 cancelAt stW.toProcess stW.nodes stW.tick N tick hh
        have hrootmem : (([] : List String), root) ∈ N := pyDictGet_mem N _ hr
        obtain ⟨kvr, hkvrW, hpr⟩ := forall2_mem_right hF2 ([], root) hrootmem
        have hkvr1 : kvr.1 = ([] : List String) := hpr.1.symm
        have hkvr_root : kvr ∈ rootPart := by
          rw [hWeq] at hkvrW
          rcases List.mem_append.1 hkvrW with hm | hm
          · exact hm
          · exact absurd hkvr1 (hDstrict kvr hm).2
        have hrootPart :
            rootPart = [(([] : List String), mkDirNode [] name false)] := by
          rcases hroot with h0 | ⟨hr1, _⟩
          · rw [h0] at hkvr_root
            exact absurd hkvr_root (List.not_mem_nil kvr)
          · exact hr1
        have hinvW : NodesInv stW.nodes := by
          rw [hWeq, hrootPart]
          refine ⟨?_, ?_, ?_⟩
          · rw [keysDistinct, List.pairwise_append]
            refine ⟨by simp, hDdist, ?_⟩
            intro a ha b hb
            simp only [List.mem_singleton] at ha
            rw [ha]
            intro he
            exact (hDstrict b hb).2 he.symm
          · intro kv hkv
            rcases List.mem_append.1 hkv with hm | hm
            · simp only [List.mem_singleton] at hm
              rw [hm]
              exact goodShape_mkDirNode _ _ _
            · exact hDshape kv hm
          · intro kv hkv hne
            rcases List.mem_append.1 hkv with hm | hm
            · simp only [List.mem_singleton] at hm
              rw [hm] at hne
              exact absurd rfl hne
            · rcases hDpar kv hm with hk | ⟨kv2, hkv2, hkey2, hdir2⟩
              · refine ⟨(([] : List String), mkDirNode [] name false),
                  List.mem_append_left _ (List.mem_singleton.2 rfl), ?_, rfl⟩
                rw [hk]
              · exact ⟨kv2, List.mem_append_right _ hkv2, hkey2, hdir2⟩
        have hinvN : NodesInv N := nodesInv_of_forall2 hF2 hinvW
        have hnokids := fileNoKids_of_inv hinvN
        rw [htree]
        exact resolveNodeF_good N hinvN.2.1 hnokids (resolveFuel N) [] root
          (hinvN.2.1 ([], root) hrootmem)
          (fun hf => hnokids ([], root) hrootmem hf)

/-- Witness fixture: a tiny readable file. -/
def wFileA : FileAttr :=
  { size := 1, bytes := [97], sniffErr := false, content := ['a'],
    readErr := none }

/-- Witness fixture: a root listing with one file and one subdirectory
holding a file. -/
def wEntries : PyFSList :=
  PyFSList.cons (PyFS.file "a.txt" wFileA)
    (PyFSList.cons
      (PyFS.dir "sub" (PyFSList.cons (PyFS.file "b.txt" wFileA) PyFSList.nil))
      PyFSList.nil)

/-- The tree the fast scan returns on the witness fixture. -/
def wTree : PyNode :=
  (scan_directory_fast (PyFS.dir "r" wEntries) [] none).getD
    (PyNode.mk
      { path := [], name := "", is_dir := false, is_ignored := false } none)

/-- Witness for the amended C9 on a concrete filesystem. -/
theorem C9_fast_children_key_iff_is_dir_witness :
    fsListWF wEntries = true
    ∧ scan_directory_fast (PyFS.dir "r" wEntries) [] none = some wTree
    ∧ ∀ n ∈ PyNode.allNodes wTree,
        (n.info.is_dir = true ↔ n.children.isSome = true) :=
  ⟨by decide, by rfl,
    C9_fast_children_key_iff_is_dir "r" wEntries [] none wTree (by decide)
      (by rfl)⟩

/-! ## `generator.py`: `build_annotated_tree` and the content pipeline

`build_annotated_tree` first builds a nested dict from the tree paths: for
every path it walks the relative-path parts and, at each part, breaks if the
key already holds a string marker, stores `'IGNORED'` and breaks if the part
is in `ignored_items`, stores `'UNCHECKED_DIR'` and breaks in standard mode
when the item state is `'unchecked'`, and otherwise descends with
`setdefault(part, {})`.  Note the loop does not distinguish the final part:
file leaves are stored as empty dicts `{}`, not as string values.

Paths are segment lists; `relpath(path, base_dir)` for a path under `base`
is modelled as dropping `base`'s segments (paths outside the base raise
`ValueError` in the source and are skipped; the embedding takes paths under
the base, as all callers supply).  Python's stable `sorted` is modelled by a
stable insertion sort. -/

mutual

/-- A value of the builder's nested dict: a sub-dict or a string marker. -/
inductive TVal where
  | str (s : String)
  | dict (d : TDict)

/-- A nested dict in insertion order. -/
inductive TDict where
  | nil
  | cons (k : String) (v : TVal) (rest : TDict)

end

/-- Dict lookup. -/
def tGet : TDict → String → Option TVal
  | TDict.nil, _ => none
  | TDict.cons k v rest, key => if k == key then some v else tGet rest key

/-- Dict assignment: replace in place, else append. -/
def tSet : TDict → String → TVal → TDict
  | TDict.nil, key, v => TDict.cons key v TDict.nil
  | TDict.cons k v0 rest, key, v =>
    if k == key then TDict.cons k v rest
    else TDict.cons k v0 (tSet rest key v)

/-- `d.keys()` in insertion order. -/
def tKeys : TDict → List String
  | TDict.nil => []
  | TDict.cons k _ rest => k :: tKeys rest

/-- Stable insertion into an ascending list. -/
def pyInsertLe {α : Type} (le : α → α → Bool) (x : α) : List α → List α
  | [] => [x]
  | y :: ys => if le x y then x :: y :: ys else y :: pyInsertLe le x ys

/-- Python's stable ascending `sorted`, as a stable insertion sort. -/
def pySortBy {α : Type} (le : α → α → Bool) : List α → List α
  | [] => []
  | x :: xs => pyInsertLe le x (pySortBy le xs)

/-- Code-point lexicographic `≤` on character lists: Python's string
comparison. -/
def lexLe : List Char → List Char → Bool
  | [], _ => true
  | _ :: _, [] => false
  | a :: as, b :: bs =>
    if a.toNat < b.toNat then true
    else if b.toNat < a.toNat then false
    else lexLe as bs

/-- Python's string `≤`. -/
def pyStrLe (a b : String) : Bool := lexLe a.data b.data

/-- The lexicographic comparison is total. -/
theorem lexLe_total : ∀ a b : List Char, lexLe a b = true ∨ lexLe b a = true
  | [], _ => Or.inl rfl
  | _ :: _, [] => Or.inr rfl
  | a :: as, b :: bs => by
    rw [lexLe, lexLe]
    by_cases hab : a.toNat < b.toNat
    · rw [if_pos hab]
      exact Or.inl rfl
    · rw [if_neg hab]
      by_cases hba : b.toNat < a.toNat
      · right
        rw [if_pos hba]
      · rw [if_neg hba, if_neg hab, if_neg hba]
        exact lexLe_total as bs

/-- The lexicographic comparison is transitive. -/
theorem lexLe_trans : ∀ a b c : List Char,
    lexLe a b = true → lexLe b c = true → lexLe a c = true
  | [], _, _, _, _ => rfl
  | _ :: _, [], _, hab, _ => by
    rw [lexLe] at hab
    exact Bool.noConfusion hab
  | _ :: _, _ :: _, [], _, hbc => by
    rw [lexLe] at hbc
    exact Bool.noConfusion hbc
  | a :: as, b :: bs, c :: cs, hab, hbc => by
    rw [lexLe] at hab hbc ⊢
    by_cases h1 : a.toNat < b.toNat
    · by_cases h2 : b.toNat < c.toNat
      · rw [if_pos (by omega : a.toNat < c.toNat)]
      · rw [if_neg h2] at hbc
        by_cases h3 : c.toNat < b.toNat
        · rw [if_pos h3] at hbc
          exact Bool.noConfusion hbc
        · rw [if_pos (by omega : a.toNat < c.toNat)]
    · rw [if_neg h1] at hab
      by_cases h1' : b.toNat < a.toNat
      · rw [if_pos h1'] at hab
        exact Bool.noConfusion hab
      · rw [if_neg h1'] at hab
        by_cases h2 : b.toNat < c.toNat
        · rw [if_pos (by omega : a.toNat < c.toNat)]
        · rw [if_neg h2] at hbc
          by_cases h3 : c.toNat < b.toNat
          · rw [if_pos h3] at hbc
            exact Bool.noConfusion hbc
          · rw [if_neg h3] at hbc
            rw [if_neg (by omega : ¬ a.toNat < c.toNat),
              if_neg (by omega : ¬ c.toNat < a.toNat)]
            exact lexLe_trans as bs cs hab hbc

/-- `sorted(d.keys())`. -/
def pySortedStrings (l : List String) : List String :=
  pySortBy pyStrLe l

/-- The `for part in parts` insertion loop of `build_annotated_tree` for one
path, carried out on the nested dict (`fullParts` holds the parts consumed
so far, for the `item_states` lookup). -/
def insertParts (ignored_items : List String) (is_annotated_mode : Bool)
    (item_states : List (List String × String)) (base : List String) :
    TDict → List String → List String → TDict
  | d, _, [] => d
  | d, fullParts, part :: rest =>
    match tGet d part with
    | some (TVal.str _) => d
    | some (TVal.dict sub) =>
      if ignored_items.contains part then tSet d part (TVal.str "IGNORED")
      else if !is_annotated_mode
          && (pyDictGet item_states (base ++ fullParts ++ [part])
              == some "unchecked") then
        tSet d part (TVal.str "UNCHECKED_DIR")
      else
        tSet d part (TVal.dict (insertParts ignored_items is_annotated_mode
          item_states base sub (fullParts ++ [part]) rest))
    | none =>
      if ignored_items.contains part then tSet d part (TVal.str "IGNORED")
      else if !is_annotated_mode
          && (pyDictGet item_states (base ++ fullParts ++ [part])
              == some "unchecked") then
        tSet d part (TVal.str "UNCHECKED_DIR")
      else
        tSet d part (TVal.dict (insertParts ignored_items is_annotated_mode
          item_states base TDict.nil (fullParts ++ [part]) rest))

/-- The `for path in files_for_tree` loop: insert every path's relative
parts. -/
def buildTreeDict (ignored_items : List String) (is_annotated_mode : Bool)
    (item_states : List (List String × String)) (base : List String) :
    TDict → List (List String) → TDict
  | d, [] => d
  | d, p :: rest =>
    buildTreeDict ignored_items is_annotated_mode item_states base
      (insertParts ignored_items is_annotated_mode item_states base d []
        (p.drop base.length)) rest

/-- `dirs`: the sorted keys whose value is a dict. -/
def dirsOf (d : TDict) : List String :=
  (pySortedStrings (tKeys d)).filter (fun k =>
    match tGet d k with
    | some (TVal.dict _) => true
    | _ => false)

/-- `all_files`: the sorted keys whose value is neither a dict nor one of
the two markers. -/
def allFilesOf (d : TDict) : List String :=
  (pySortedStrings (tKeys d)).filter (fun k =>
    match tGet d k with
    | some (TVal.str s) => !(s == "IGNORED") && !(s == "UNCHECKED_DIR")
    | _ => false)

/-- `ignored_nodes`: the sorted keys holding `'IGNORED'`. -/
def ignoredNodesOf (d : TDict) : List String :=
  (pySortedStrings (tKeys d)).filter (fun k =>
    match tGet d k with
    | some (TVal.str s) => s == "IGNORED"
    | _ => false)

/-- `unchecked_dirs`: the sorted keys holding `'UNCHECKED_DIR'`. -/
def uncheckedDirsOf (d : TDict) : List String :=
  (pySortedStrings (tKeys d)).filter (fun k =>
    match tGet d k with
    | some (TVal.str s) => s == "UNCHECKED_DIR"
    | _ => false)

/-- `files_to_render`: all files in annotated mode, the content-selected
ones in standard mode. -/
def filesToRender (is_annotated_mode : Bool) (contentSet : List (List String))
    (base : List String) (d : TDict) (curPath : List String) : List String :=
  if is_annotated_mode then allFilesOf d
  else (allFilesOf d).filter (fun name =>
    contentSet.contains (base ++ curPath ++ [name]))

/-- The synthetic summary item (`None` in annotated mode or when no file is
omitted). -/
def omittedSummaryItem (is_annotated_mode : Bool)
    (contentSet : List (List String)) (base : List String) (d : TDict)
    (curPath : List String) : Option String :=
  if is_annotated_mode then none
  else
    let count := (allFilesOf d).length
      - (filesToRender is_annotated_mode contentSet base d curPath).length
    if count > 0 then
      some ("[" ++ toString count ++ " other file"
        ++ (if count > 1 then "s" else "") ++ " omitted]")
    else none

/-- Truthiness of a details dict (`if details and ...`): some key present. -/
def gdetTruthy (g : GDet) : Bool :=
  g.path.isSome || g.content.isSome || g.line_count.isSome || g.error.isSome
    || g.mtime.isSome

/-- Truthiness of `details.get('error')`: the key maps to a non-empty
string. -/
def gdetErrTruthy (g : GDet) : Bool :=
  match g.error with
  | some (some s) => !(s == "")
  | _ => false

/-- The annotation list of a file line in `generate_lines`. -/
def fileAnnotations (is_annotated_mode : Bool) (is_content_included : Bool)
    (details : Option GDet) : List String :=
  (match details with
   | some g =>
     if gdetTruthy g then
       if gdetErrTruthy g then
         [match g.error with
          | some (some s) => s
          | _ => ""]
       else
         match g.line_count with
         | some (some n) =>
           if is_content_included || is_annotated_mode then
             [toString n ++ " lines"]
           else []
         | _ => []
     else []
   | none => [])
  ++ (if is_annotated_mode && !is_content_included
        && !(match details with
             | some g => gdetTruthy g && gdetErrTruthy g
             | none => false) then
      ["content omitted"]
    else [])

/-- `"  [a | b]"` or `""`. -/
def annotationString (anns : List String) : String :=
  if anns.isEmpty then "" else "  [" ++ String.intercalate " | " anns ++ "]"

mutual

/-- `generate_lines(d, prefix, current_path)` (fuel-indexed: the source
recursion descends the nested dict, whose depth any sufficient fuel
covers). -/
def genLinesF (is_annotated_mode : Bool) (contentSet : List (List String))
    (fdm : List (List String × GDet)) (base : List String) :
    Nat → TDict → String → List String → List String
  | 0, _, _, _ => []
  | fuel + 1, d, pref, curPath =>
    genItemsF is_annotated_mode contentSet fdm base fuel d pref curPath
      ((dirsOf d ++ uncheckedDirsOf d
          ++ filesToRender is_annotated_mode contentSet base d curPath
          ++ ignoredNodesOf d)
        ++ (match omittedSummaryItem is_annotated_mode contentSet base d
              curPath with
            | some s => [s]
            | none => []))

/-- The `for i, name in enumerate(all_renderable_items)` loop (`"└── "` and
blank extension for the last item, `"├── "` and `"│   "` otherwise). -/
def genItemsF (is_annotated_mode : Bool) (contentSet : List (List String))
    (fdm : List (List String × GDet)) (base : List String) :
    Nat → TDict → String → List String → List String → List String
  | 0, _, _, _, _ => []
  | _ + 1, _, _, _, [] => []
  | fuel + 1, d, pref, curPath, name :: rest =>
    let connector := if rest.isEmpty then "└── " else "├── "
    let extension := if rest.isEmpty then "    " else "│   "
    (if (omittedSummaryItem is_annotated_mode contentSet base d curPath
          == some name) then
      [pref ++ connector ++ name]
    else if (ignoredNodesOf d).contains name then
      [pref ++ connector ++ name ++ "  [ignored]"]
    else if (uncheckedDirsOf d).contains name then
      [pref ++ connector ++ name ++ "  [content omitted]"]
    else if (dirsOf d).contains name then
      (pref ++ connector ++ name
        ++ (match pyDictGet fdm (base ++ curPath ++ [name]) with
            | some g =>
              if gdetTruthy g then
                match g.line_count with
                | some (some n) => "  [" ++ toString n ++ " lines]"
                | _ => ""
              else ""
            | none => ""))
        :: genLinesF is_annotated_mode contentSet fdm base fuel
            (match tGet d name with
             | some (TVal.dict sub) => sub
             | _ => TDict.nil)
            (pref ++ extension) (curPath ++ [name])
    else
      [pref ++ connector ++ name
        ++ annotationString (fileAnnotations is_annotated_mode
            (contentSet.contains (base ++ curPath ++ [name]))
            (pyDictGet fdm (base ++ curPath ++ [name])))])
    ++ genItemsF is_annotated_mode contentSet fdm base fuel d pref curPath rest

end

/-- `build_annotated_tree(root_path, …)`: build the nested dict, then render
the root folder name followed by the rendered lines of its sub-dict.  (When
the root itself is marked ignored the source would crash on a string value;
the embedding covers the root-not-ignored case all callers exercise.) -/
def build_annotated_tree (root_path : List String)
    (files_for_tree files_for_content : List (List String))
    (is_annotated_mode : Bool) (ignored_items : List String)
    (item_states : List (List String × String))
    (fdm : List (List String × GDet)) (fuel : Nat) : List String :=
  let base := root_path.dropLast
  let td := buildTreeDict ignored_items is_annotated_mode item_states base
    TDict.nil files_for_tree
  let rootName := (root_path.getLast?).getD ""
  let rootDict :=
    match tGet td rootName with
    | some (TVal.dict d) => d
    | _ => TDict.nil
  rootName :: genLinesF is_annotated_mode files_for_content fdm base fuel
    rootDict "" [rootName]

mutual

/-- The builder's dict invariant: every stored value is a sub-dict (file
leaves included: they are stored as `{}`) or one of the two markers. -/
def onlyMarkersV : TVal → Bool
  | TVal.str s => s == "IGNORED" || s == "UNCHECKED_DIR"
  | TVal.dict d => onlyMarkers d

/-- The invariant over a whole dict. -/
def onlyMarkers : TDict → Bool
  | TDict.nil => true
  | TDict.cons _ v rest => onlyMarkersV v && onlyMarkers rest

end

/-- A key of a dict has a value. -/
theorem tGet_isSome_of_mem_keys :
    ∀ (d : TDict) (k : String), k ∈ tKeys d → ∃ v, tGet d k = some v
  | TDict.nil, k, h => absurd h (List.not_mem_nil k)
  | TDict.cons k0 v0 rest, k, h => by
    rw [tKeys] at h
    rw [tGet]
    by_cases he : (k0 == k) = true
    · rw [if_pos he]
      exact ⟨v0, rfl⟩
    · rw [if_neg he]
      rcases List.mem_cons.1 h with h | h
      · exact absurd (by simp [h]) he
      · exact tGet_isSome_of_mem_keys rest k h

/-- Values of an invariant dict satisfy the value invariant. -/
theorem onlyMarkersV_of_tGet :
    ∀ (d : TDict) (k : String) (v : TVal), onlyMarkers d = true →
      tGet d k = some v → onlyMarkersV v = true
  | TDict.nil, k, v, _, h => by
    rw [tGet] at h
    exact Option.noConfusion h
  | TDict.cons k0 v0 rest, k, v, hinv, h => by
    rw [onlyMarkers, Bool.and_eq_true] at hinv
    rw [tGet] at h
    by_cases he : (k0 == k) = true
    · rw [if_pos he] at h
      rw [← Option.some.inj h]
      exact hinv.1
    · rw [if_neg he] at h
      exact onlyMarkersV_of_tGet rest k v hinv.2 h

/-- Assignment preserves the dict invariant. -/
theorem onlyMarkers_tSet :
    ∀ (d : TDict) (k : String) (v : TVal), onlyMarkers d = true →
      onlyMarkersV v = true → onlyMarkers (tSet d k v) = true
  | TDict.nil, k, v, _, hv => by
    rw [tSet, onlyMarkers, onlyMarkers, hv]
    rfl
  | TDict.cons k0 v0 rest, k, v, hinv, hv => by
    rw [onlyMarkers, Bool.and_eq_true] at hinv
    rw [tSet]
    by_cases he : (k0 == k) = true
    · rw [if_pos he, onlyMarkers, hv, hinv.2]
      rfl
    · rw [if_neg he, onlyMarkers, hinv.1,
        onlyMarkers_tSet rest k v hinv.2 hv]
      rfl

/-- The insertion loop preserves the dict invariant: it stores only markers
and sub-dicts (file leaves become `{}`). -/
theorem onlyMarkers_insertParts (ign : List String) (isAnn : Bool)
    (states : List (List String × String)) (base : List String) :
    ∀ (parts : List String) (d : TDict) (fullParts : List String),
      onlyMarkers d = true →
      onlyMarkers (insertParts ign isAnn states base d fullParts parts)
        = true := by
  intro parts
  induction parts with
  | nil =>
    intro d fullParts hinv
    rw [insertParts]
    exact hinv
  | cons part rest ih =>
    intro d fullParts hinv
    rw [insertParts]
    split
    · exact hinv
    · rename_i sub heq
      by_cases hign : ign.contains part = true
      · rw [if_pos hign]
        exact onlyMarkers_tSet d part (TVal.str "IGNORED") hinv
          (by rw [onlyMarkersV]; simp)
      · rw [if_neg hign]
        by_cases hst : (!isAnn
            && (pyDictGet states (base ++ fullParts ++ [part])
                == some "unchecked")) = true
        · rw [if_pos hst]
          exact onlyMarkers_tSet d part (TVal.str "UNCHECKED_DIR") hinv
            (by rw [onlyMarkersV]; simp)
        · rw [if_neg hst]
          refine onlyMarkers_tSet d part _ hinv ?_
          rw [onlyMarkersV]
          exact ih sub (fullParts ++ [part])
            (onlyMarkersV_of_tGet d part (TVal.dict sub) hinv heq)
    · by_cases hign : ign.contains part = true
      · rw [if_pos hign]
        exact onlyMarkers_tSet d part (TVal.str "IGNORED") hinv
          (by rw [onlyMarkersV]; simp)
      · rw [if_neg hign]
        by_cases hst : (!isAnn
            && (pyDictGet states (base ++ fullParts ++ [part])
                == some "unchecked")) = true
        · rw [if_pos hst]
          exact onlyMarkers_tSet d part (TVal.str "UNCHECKED_DIR") hinv
            (by rw [onlyMarkersV]; simp)
        · rw [if_neg hst]
          refine onlyMarkers_tSet d part _ hinv ?_
          rw [onlyMarkersV]
          exact ih TDict.nil (fullParts ++ [part]) rfl

/-- The whole builder loop preserves the invariant. -/
theorem onlyMarkers_buildTreeDict (ign : List String) (isAnn : Bool)
    (states : List (List String × String)) (base : List String) :
    ∀ (files : List (List String)) (d : TDict), onlyMarkers d = true →
      onlyMarkers (buildTreeDict ign isAnn states base d files) = true
  | [], _, hinv => hinv
  | p :: rest, d, hinv =>
    onlyMarkers_buildTreeDict ign isAnn states base rest
      (insertParts ign isAnn states base d [] (p.drop base.length))
      (onlyMarkers_insertParts ign isAnn states base (p.drop base.length)
        d [] hinv)

/-- Membership under stable insertion. -/
theorem mem_pyInsertLe {α : Type} (le : α → α → Bool) (x : α) :
    ∀ (l : List α) (y : α), y ∈ pyInsertLe le x l ↔ y = x ∨ y ∈ l
  | [], y => by
    rw [pyInsertLe]
    simp
  | z :: zs, y => by
    rw [pyInsertLe]
    by_cases hle : le x z = true
    · rw [if_pos hle]
      simp [List.mem_cons]
    · rw [if_neg hle]
      simp only [List.mem_cons, mem_pyInsertLe le x zs y]
      tauto

/-- Insertion permutes a cons. -/
theorem pyInsertLe_perm {α : Type} (le : α → α → Bool) (x : α) :
    ∀ l : List α, (pyInsertLe le x l).Perm (x :: l)
  | [] => by
    rw [pyInsertLe]
  | z :: zs => by
    rw [pyInsertLe]
    by_cases hle : le x z = true
    · rw [if_pos hle]
    · rw [if_neg hle]
      exact ((pyInsertLe_perm le x zs).cons z).trans (List.Perm.swap x z zs)

/-- The stable sort is a permutation. -/
theorem pySortBy_perm {α : Type} (le : α → α → Bool) :
    ∀ l : List α, (pySortBy le l).Perm l
  | [] => List.Perm.refl _
  | x :: xs => by
    rw [pySortBy]
    exact (pyInsertLe_perm le x (pySortBy le xs)).trans
      ((pySortBy_perm le xs).cons x)

/-- Insertion into an ascending list (for a total, transitive comparison)
stays ascending. -/
theorem pairwise_pyInsertLe {α : Type} (le : α → α → Bool)
    (htot : ∀ a b, le a b = true ∨ le b a = true)
    (htrans : ∀ a b c, le a b = true → le b c = true → le a c = true) :
    ∀ (l : List α) (x : α), l.Pairwise (fun a b => le a b = true) →
      (pyInsertLe le x l).Pairwise (fun a b => le a b = true)
  | [], x, _ => by
    rw [pyInsertLe]
    simp
  | z :: zs, x, hp => by
    rw [pyInsertLe]
    obtain ⟨hz, hzs⟩ := List.pairwise_cons.1 hp
    by_cases hle : le x z = true
    · rw [if_pos hle]
      refine List.pairwise_cons.2 ⟨?_, hp⟩
      intro b hb
      rcases List.mem_cons.1 hb with he | hb
      · rw [he]
        exact hle
      · exact htrans x z b hle (hz b hb)
    · rw [if_neg hle]
      have hzx : le z x = true := by
        rcases htot x z with h | h
        · exact absurd h hle
        · exact h
      refine List.pairwise_cons.2
        ⟨?_, pairwise_pyInsertLe le htot htrans zs x hzs⟩
      intro b hb
      rcases (mem_pyInsertLe le x zs b).1 hb with he | hb
      · rw [he]
        exact hzx
      · exact hz b hb

/-- The stable sort ascends (for a total, transitive comparison). -/
theorem pairwise_pySortBy {α : Type} (le : α → α → Bool)
    (htot : ∀ a b, le a b = true ∨ le b a = true)
    (htrans : ∀ a b c, le a b = true → le b c = true → le a c = true) :
    ∀ l : List α, (pySortBy le l).Pairwise (fun a b => le a b = true)
  | [] => List.Pairwise.nil
  | x :: xs => by
    rw [pySortBy]
    exact pairwise_pyInsertLe le htot htrans _ x
      (pairwise_pySortBy le htot htrans xs)

/-- On an invariant dict the `all_files` partition is empty: every value is
a sub-dict or one of the two excluded markers. -/
theorem allFilesOf_eq_nil_of_onlyMarkers (d : TDict)
    (hinv : onlyMarkers d = true) : allFilesOf d = [] := by
  rw [allFilesOf, List.filter_eq_nil]
  intro k hk hpred
  have hk' : k ∈ tKeys d :=
    ((pySortBy_perm pyStrLe (tKeys d)).mem_iff).1 hk
  obtain ⟨v, hv⟩ := tGet_isSome_of_mem_keys d k hk'
  have hmv := onlyMarkersV_of_tGet d k v hinv hv
  cases v with
  | dict sub =>
    rw [hv] at hpred
    simp at hpred
  | str s =>
    rw [hv] at hpred
    simp only at hpred
    rw [onlyMarkersV, Bool.or_eq_true] at hmv
    rcases hmv with h | h
    · rw [h] at hpred
      simp at hpred
    · rw [h] at hpred
      simp at hpred

/-- On an invariant dict the standard-mode omitted-file count is `0 - 0`, so
no summary item is ever produced. -/
theorem omittedSummaryItem_none_of_onlyMarkers
    (contentSet : List (List String)) (base : List String) (d : TDict)
    (curPath : List String) (hinv : onlyMarkers d = true) :
    omittedSummaryItem false contentSet base d curPath = none := by
  have hnil := allFilesOf_eq_nil_of_onlyMarkers d hinv
  simp [omittedSummaryItem, filesToRender, hnil]

/-- The claim's `/proj` scenario as details map: `a.py` with 3 lines and
`sub/c.py` with 2 lines recorded. -/
def fdmC2 : List (List String × GDet) :=
  [(["proj", "a.py"], { line_count := some (some 3) }),
   (["proj", "sub", "c.py"], { line_count := some (some 2) })]

/-- C2: the `[N other file(s) omitted]` machinery is dead code, and the
claim's own scenario refutes the claim.  The builder stores file leaves as
empty dicts, so the `all_files` partition `generate_lines` computes is
always empty and the omitted-file count is always zero: on the claim's
`/proj` scenario (files `a.py` selected, `b.log` ignored, `sub/c.py`
unselected) standard mode renders `sub` with an un-collapsed `c.py` line
(even annotated with its line count) and no summary line, against the
claimed `[1 other file omitted]` collapse. -/
theorem C2_omitted_summary_dead :
    build_annotated_tree ["proj"]
        [["proj", "a.py"], ["proj", "b.log"], ["proj", "sub", "c.py"]]
        [["proj", "a.py"]] false ["b.log"] [] fdmC2 20
      = ["proj", "├── a.py  [3 lines]", "├── sub", "│   └── c.py  [2 lines]",
         "└── b.log  [ignored]"]
    ∧ (∀ (files : List (List String)) (ign : List String) (isAnn : Bool)
        (states : List (List String × String)) (base : List String),
        onlyMarkers (buildTreeDict ign isAnn states base TDict.nil files)
          = true)
    ∧ (∀ (contentSet : List (List String)) (base : List String) (d : TDict)
        (curPath : List String), onlyMarkers d = true →
        omittedSummaryItem false contentSet base d curPath = none) := by
  refine ⟨by decide, ?_, ?_⟩
  · intro files ign isAnn states base
    exact onlyMarkers_buildTreeDict ign isAnn states base files TDict.nil rfl
  · intro contentSet base d curPath hinv
    exact omittedSummaryItem_none_of_onlyMarkers contentSet base d curPath hinv

/-- Witness for C2's universal part at a concrete built dict. -/
theorem C2_omitted_summary_dead_witness :
    onlyMarkers (buildTreeDict ["b.log"] false [] [] TDict.nil
        [["proj", "a.py"], ["proj", "b.log"], ["proj", "sub", "c.py"]]) = true
    ∧ omittedSummaryItem false [["proj", "a.py"]] []
        (buildTreeDict ["b.log"] false [] [] TDict.nil
          [["proj", "a.py"], ["proj", "b.log"], ["proj", "sub", "c.py"]])
        ["proj"] = none :=
  ⟨C2_omitted_summary_dead.2.1 _ _ _ _ _,
   C2_omitted_summary_dead.2.2 _ _ _ _
     (C2_omitted_summary_dead.2.1 _ _ _ _ _)⟩

/-! ## `generator.py`: `generate_text_content_fast` content composition -/

/-- `sorted(files_for_content)`: Python sorts the path strings; segment
lists are compared through their joined form. -/
def pySortedPaths (l : List (List String)) : List (List String) :=
  pySortBy (fun p q => pyStrLe (joinSlash p) (joinSlash q)) l

/-- The cache-miss selection: `files_to_read` keeps the content files whose
details dict (empty when the path is absent) has no `content` key. -/
def files_to_read (files_for_content : List (List String))
    (fdm : List (List String × GDet)) : List (List String) :=
  files_for_content.filter (fun fp =>
    match pyDictGet fdm fp with
    | some det => det.content.isNone
    | none => true)

/-- The emission guard of the final loop: `details and not
details.get('error') and details.get('content') is not None`. -/
def emitGuard (fdm : List (List String × GDet)) (fp : List String) : Bool :=
  match pyDictGet fdm fp with
  | some det =>
    gdetTruthy det && !(gdetErrTruthy det)
      && (match det.content with
          | some (some _) => true
          | _ => false)
  | none => false

/-- The paths whose content blocks the final loop appends, in append
order: the loop iterates `sorted(files_for_content)` and emits those
passing the guard. -/
def contentEmission (files_for_content : List (List String))
    (fdm : List (List String × GDet)) : List (List String) :=
  (pySortedPaths files_for_content).filter (emitGuard fdm)

/-- Fixture: details with content present and no error, as the worker
produces for a readable file. -/
def gdetRead : GDet :=
  { content := some (some ['a']), line_count := some (some 1),
    error := some none }

/-- C6 counterexample: with selection `[/p/b.py, /p/a.py]` in tree order,
the content section emits `a.py` before `b.py` — sorted order, not the
original order. -/
theorem C6_counterexample :
    contentEmission [["p", "b.py"], ["p", "a.py"]]
        [(["p", "b.py"], gdetRead), (["p", "a.py"], gdetRead)]
      = [["p", "a.py"], ["p", "b.py"]]
    ∧ contentEmission [["p", "b.py"], ["p", "a.py"]]
        [(["p", "b.py"], gdetRead), (["p", "a.py"], gdetRead)]
      ≠ [["p", "b.py"], ["p", "a.py"]] := by
  refine ⟨by decide, by decide⟩

/-- C6 (amended): both composers iterate `sorted(files_for_content)`, so
the emitted sequence is ascending in the path order and is a permutation of
the guard-passing selection — alphabetical order, not original tree
order. -/
theorem C6_content_emitted_sorted (files_for_content : List (List String))
    (fdm : List (List String × GDet)) :
    (contentEmission files_for_content fdm).Pairwise
        (fun p q => pyStrLe (joinSlash p) (joinSlash q) = true)
    ∧ (contentEmission files_for_content fdm).Perm
        (files_for_content.filter (emitGuard fdm)) := by
  constructor
  · have hp := pairwise_pySortBy
      (fun p q => pyStrLe (joinSlash p) (joinSlash q))
      (fun a b => lexLe_total (joinSlash a).data (joinSlash b).data)
      (fun a b c hab hbc =>
        lexLe_trans (joinSlash a).data (joinSlash b).data (joinSlash c).data
          hab hbc)
      files_for_content
    have hsub : (contentEmission files_for_content fdm).Sublist
        (pySortedPaths files_for_content) := List.filter_sublist _
    exact hp.sublist hsub
  · exact (pySortBy_perm _ files_for_content).filter (emitGuard fdm)

/-! ## Claim C3: the size check exists only in the scan phase -/

/-- C3: the scan-phase classifier checks the size first and never opens an
oversized file for a full read — but the generation-phase cache-miss path
contradicts the claim: `_read_file_content_worker` performs the full-read
open unconditionally (it has no size check at all), a selected file whose
details dict lacks a `content` key (as after a cache miss) is queued for
exactly that worker, and the worker's successful result makes the file pass
the content-section emission guard, so an oversized selected file is read in
full and included in the File Contents section. -/
theorem C3_no_size_check_in_content_read (f : FileAttr) (fp : List String)
    (s : String) :
    (f.size > MAX_FILE_SIZE_BYTES →
      (_process_file_for_scan f).1.error = some "> 10MB"
      ∧ FileAccess.openFullRead ∉ (_process_file_for_scan f).2)
    ∧ (_read_file_content_worker f).2 = [FileAccess.openFullRead]
    ∧ files_to_read [fp] [(fp, { path := some s })] = [fp]
    ∧ (f.readErr = none →
        (_read_file_content_worker f).1.content = some (some f.content)
        ∧ (_read_file_content_worker f).1.error = some none
        ∧ contentEmission [fp] [(fp, (_read_file_content_worker f).1)]
            = [fp]) := by
  refine ⟨?_, ?_, ?_, ?_⟩
  · intro h
    obtain ⟨he, hc, hno, _⟩ := process_file_too_large f h
    exact ⟨he, hno⟩
  · rw [_read_file_content_worker]
    cases f.readErr with
    | none => rfl
    | some e => rfl
  · rw [files_to_read]
    simp [pyDictGet]
  · intro hre
    have hworker : _read_file_content_worker f
        = ({ content := some (some f.content),
             line_count := some (some (f.content.count '\n' + 1)),
             error := some none }, [FileAccess.openFullRead]) := by
      simp only [_read_file_content_worker, hre]
    rw [hworker]
    refine ⟨rfl, rfl, ?_⟩
    have hsorted : pySortedPaths [fp] = [fp] := by
      rw [pySortedPaths, pySortBy, pySortBy, pyInsertLe]
    rw [contentEmission, hsorted]
    simp [emitGuard, pyDictGet, gdetTruthy, gdetErrTruthy]

/-- Fixture: an 11 MiB file (over the 10 MiB threshold), readable. -/
def bigAttr : FileAttr :=
  { size := 11534336, bytes := [], sniffErr := false, content := ['x'],
    readErr := none }

/-- Witness for C3 at the 11 MiB fixture: the scan phase records the error
without a full read, while the generation-phase worker full-reads it and the
file is emitted into the content section. -/
theorem C3_no_size_check_in_content_read_witness :
    bigAttr.size > MAX_FILE_SIZE_BYTES
    ∧ (_process_file_for_scan bigAttr).1.error = some "> 10MB"
    ∧ FileAccess.openFullRead ∉ (_process_file_for_scan bigAttr).2
    ∧ (_read_file_content_worker bigAttr).2 = [FileAccess.openFullRead]
    ∧ files_to_read [["p", "big.bin"]]
        [(["p", "big.bin"], { path := some "/p/big.bin" })]
      = [["p", "big.bin"]]
    ∧ contentEmission [["p", "big.bin"]]
        [(["p", "big.bin"], (_read_file_content_worker bigAttr).1)]
      = [["p", "big.bin"]] :=
  ⟨by decide,
   ((C3_no_size_check_in_content_read bigAttr ["p", "big.bin"]
      "/p/big.bin").1 (by decide)).1,
   ((C3_no_size_check_in_content_read bigAttr ["p", "big.bin"]
      "/p/big.bin").1 (by decide)).2,
   (C3_no_size_check_in_content_read bigAttr ["p", "big.bin"]
      "/p/big.bin").2.1,
   (C3_no_size_check_in_content_read bigAttr ["p", "big.bin"]
      "/p/big.bin").2.2.1,
   ((C3_no_size_check_in_content_read bigAttr ["p", "big.bin"]
      "/p/big.bin").2.2.2 rfl).2.2⟩

end CodebaseToText
